import Mathlib

/-!
Verification development for the `file_archive` content-addressed store.

The Python sources are shallowly embedded:
* Python scalar and dict metadata values become the inductive types
  `PyScalar` / `PyValue`; Python dicts become association lists whose
  insertion keeps the original position of an existing key, as CPython
  dicts do.
* SHA-1 is abstracted as the identity on the byte stream fed to it:
  every `sha1(...)...hexdigest()` in the source is modelled by the string
  that the source feeds into the hash.  All equalities and inequalities
  proved below about digests therefore hold at the level of the hashed
  byte streams, which the real SHA-1 function maps equally.
* sqlite3 is modelled by an explicit list of rows; a transaction that
  raises is rolled back, leaving the list as it was.  Failures of the
  database layer that are external to the embedded logic (disk errors,
  closed connections) are injected through an explicit fault parameter.
* Byte strings (which `normalize_metadata` would decode as ASCII) are not
  modelled separately from text strings, and values that are neither
  int, str, float nor dict are all represented by the `pfloat`
  constructor, which the source rejects in the same branch as floats.
-/

deriving instance DecidableEq for Except

/-- A scalar Python value as it appears inside a metadata or condition
dict: an int, a text string, or a float (the representative of every
other unsupported scalar shape). -/
inductive PyScalar
  | pint (n : Int)
  | pstr (s : String)
  | pfloat
deriving DecidableEq, Repr

/-- A Python value appearing as a metadata value or query condition:
a bare scalar or a string-keyed dict of scalars (covering the tagged
`type`/`value` form and malformed dicts alike). -/
inductive PyValue
  | pint (n : Int)
  | pstr (s : String)
  | pfloat
  | pdict (pairs : List (String × PyScalar))
deriving DecidableEq, Repr

/-- Look a key up in an association list (first match), as a Python
dict lookup does. -/
def dictLookup {α : Type} (d : List (String × α)) (k : String) : Option α :=
  match d with
  | [] => none
  | (k0, v0) :: rest => if k0 = k then some v0 else dictLookup rest k

/-- `d[k] = v` on a Python dict: replaces the value in place if the key
exists (keeping its position), appends otherwise. -/
def dictInsert {α : Type} (d : List (String × α)) (k : String) (v : α) :
    List (String × α) :=
  match d with
  | [] => [(k, v)]
  | (k0, v0) :: rest =>
      if k0 = k then (k0, v) :: rest else (k0, v0) :: dictInsert rest k v

/-- `d.pop(k)`: the removed value and the remaining dict, or `none` when
the key is absent (the `KeyError` case). -/
def dictPop {α : Type} (d : List (String × α)) (k : String) :
    Option (α × List (String × α)) :=
  match d with
  | [] => none
  | (k0, v0) :: rest =>
      if k0 = k then some (v0, rest)
      else match dictPop rest k with
           | none => none
           | some (v, rest') => some (v, (k0, v0) :: rest')

/-- Raw metadata as passed by a caller: a dict of `PyValue`s. -/
abbrev RawMetadata := List (String × PyValue)

/-- A normalized metadata value: the pair of the popped `type` tag and
the popped `value` (both scalars), i.e. the dict
`{type: t, value: v}` produced by `normalize_metadata`. -/
abbrev NormValue := PyScalar × PyScalar

/-- Normalized metadata: what `normalize_metadata` returns. -/
abbrev NormMetadata := List (String × NormValue)

/-- The two exception classes `normalize_metadata` raises: `ValueError`
for a dict without exactly the keys `type` and `value`, `TypeError` for
a value that is neither int, str nor dict. -/
inductive NormErr
  | valueError
  | typeError
deriving DecidableEq, Repr

/-- The per-value body of the `normalize_metadata` loop (database.py
lines 27-50): strings infer the `str` tag, ints the `int` tag, a dict
must contain exactly the keys `type` and `value` (any tag is accepted:
the tag itself is not validated, `ValueError` otherwise), and every
other shape raises `TypeError`. -/
def normalizeValue (mvalue : PyValue) : Except NormErr NormValue :=
  match mvalue with
  | .pstr s => .ok (PyScalar.pstr "str", PyScalar.pstr s)
  | .pint n => .ok (PyScalar.pstr "int", PyScalar.pint n)
  | .pdict pairs =>
      (match dictPop pairs "type" with
       | none => .error NormErr.valueError
       | some (t, r1) =>
           match dictPop r1 "value" with
           | none => .error NormErr.valueError
           | some (v, r2) =>
               if r2.isEmpty then .ok (t, v)
               else .error NormErr.valueError)
  | .pfloat => .error NormErr.typeError

/-- `normalize_metadata` (database.py lines 24-51): normalizes each
value of the dict in order through `normalizeValue`. -/
def normalize_metadata (metadata : RawMetadata) :
    Except NormErr NormMetadata :=
  match metadata with
  | [] => .ok []
  | (mkey, mvalue) :: rest =>
      match normalizeValue mvalue with
      | .error e => .error e
      | .ok nv =>
          match normalize_metadata rest with
          | .error e => .error e
          | .ok tail => .ok ((mkey, nv) :: tail)

/-- Embeds a normalized value back into a raw Python value: the dict
`{type: t, value: v}` that `normalize_metadata` literally returns. -/
def normToRaw (nv : NormValue) : PyValue :=
  .pdict [("type", nv.1), ("value", nv.2)]

/-- A whole normalized record as the raw dict `normalize_metadata`
returns, so it can be fed back into metadata-consuming functions. -/
def normMetaToRaw (nmd : NormMetadata) : RawMetadata :=
  nmd.map (fun p => (p.1, normToRaw p.2))

/-- Exceptions out of `hash_metadata`: the `assert` on the `hash` key,
and the `TypeError` that `%`-formatting an int as a string (or vice
versa) raises. -/
inductive HashMetaErr
  | assertErr
  | normErr (e : NormErr)
  | typeError
deriving DecidableEq, Repr

/-- One `(key, value)` contribution to the metadata hash: the
length-tagged key, then `i<int>e` for ints and `<len>:<text>` for
everything hashed through the string branch. -/
def encodeTriple (k : String) (nv : NormValue) : Except HashMetaErr String :=
  match nv with
  | (.pstr "int", .pint n) =>
      .ok (toString k.length ++ ":" ++ k ++ "i" ++ toString n ++ "e")
  | (.pstr "int", _) => .error HashMetaErr.typeError
  | (_, .pstr s) =>
      .ok (toString k.length ++ ":" ++ k ++ toString s.length ++ ":" ++ s)
  | (_, _) => .error HashMetaErr.typeError

/-- Lexicographic order on code-point lists: the order Python string
comparison and the SQLite BINARY collation both use on ASCII data. -/
def lexLt : List Char → List Char → Bool
  | [], [] => false
  | [], _ :: _ => true
  | _ :: _, [] => false
  | a :: as, b :: bs =>
      if a.toNat < b.toNat then true
      else if a.toNat = b.toNat then lexLt as bs
      else false

/-- Strict string order by code points. -/
def strLt (a b : String) : Bool := lexLt a.data b.data

/-- Non-strict string order by code points. -/
def strLe (a b : String) : Bool := strLt a b || a == b

/-- Insertion sort of normalized items by key, the
`sorted(metadata.items(), key=lambda p: p[0])` of the source. -/
def sortedInsert (p : String × NormValue) (l : NormMetadata) : NormMetadata :=
  match l with
  | [] => [p]
  | q :: rest =>
      if strLe p.1 q.1 then p :: q :: rest else q :: sortedInsert p rest

/-- Sorts normalized metadata items by key. -/
def sortItems (l : NormMetadata) : NormMetadata :=
  match l with
  | [] => []
  | p :: rest => sortedInsert p (sortItems rest)

/-- Folds the sorted encoded triples into the hashed byte stream. -/
def encodeItems (l : NormMetadata) : Except HashMetaErr String :=
  match l with
  | [] => .ok ""
  | (k, nv) :: rest => do
      let s ← encodeTriple k nv
      let tail ← encodeItems rest
      .ok (s ++ tail)

/-- `hash_metadata` (__init__.py lines 107-121): asserts the `hash` key
is present, normalizes, then hashes the sorted length-tagged triples.
The SHA-1 digest is modelled by the hashed byte stream itself. -/
def hash_metadata (metadata : RawMetadata) : Except HashMetaErr String :=
  if (dictLookup metadata "hash").isNone then .error HashMetaErr.assertErr
  else
    match normalize_metadata metadata with
    | .error e => .error (HashMetaErr.normErr e)
    | .ok nmd => encodeItems (sortItems nmd)

/-- One row of the `metadata` table: `objectid`, `mkey`, and one value
column per supported type (`mvalue_str` TEXT, `mvalue_int` INTEGER),
NULL for the non-matching type. -/
structure DbRow where
  objectid : String
  mkey : String
  mvalue_str : Option String
  mvalue_int : Option Int
deriving DecidableEq, Repr

/-- The metadata table, in rowid (insertion) order. -/
abbrev Db := List DbRow

/-- Exceptions out of `MetadataStore.add`: the `assert`, normalization
errors, a sqlite error from a malformed INSERT (unknown value column or
unbindable value), and an injected external sqlite failure (disk error,
closed connection, ...) used to exercise the rollback path. -/
inductive AddErr
  | assertErr
  | normErr (e : NormErr)
  | sqlErr
  | injectedErr
deriving DecidableEq, Repr

/-- The row an `INSERT INTO metadata(objectid, mkey, mvalue_{t})`
produces for one normalized attribute.  A tag other than `str`/`int`
names a column that does not exist and a value of the wrong kind for
the column is not modelled (SQLite column affinity would coerce it, but
no value of that shape survives `hash_metadata`, which every caller in
the source runs first); both give the sqlite-error case `none`. -/
def encodeRow (oid k : String) (nv : NormValue) : Option DbRow :=
  match nv with
  | (.pstr "str", .pstr s) => some ⟨oid, k, some s, none⟩
  | (.pstr "int", .pint n) => some ⟨oid, k, none, some n⟩
  | _ => none

/-- The INSERT loop of `MetadataStore.add`: one statement per
normalized attribute, in dict order.  `failAt = some i` injects an
external sqlite failure at the i-th INSERT. -/
def insertLoop (oid : String) (items : NormMetadata) (failAt : Option Nat) :
    Except AddErr (List DbRow) :=
  match items with
  | [] => .ok []
  | (k, nv) :: rest =>
      if failAt = some 0 then .error AddErr.injectedErr
      else
        match encodeRow oid k nv with
        | none => .error AddErr.sqlErr
        | some row =>
            match insertLoop oid rest (failAt.map Nat.pred) with
            | .error e => .error e
            | .ok tail => .ok (row :: tail)

/-- `MetadataStore.add` (database.py lines 111-142): asserts `hash` is
present, normalizes, returns `False` without touching the table when
the objectid already has a row, otherwise inserts one row per attribute
inside a transaction: on any exception the transaction is rolled back
and the table is exactly as before. -/
def MetadataStore.add (db : Db) (objectid : String) (metadata : RawMetadata)
    (failAt : Option Nat) : Except AddErr Bool × Db :=
  if (dictLookup metadata "hash").isNone then (.error AddErr.assertErr, db)
  else
    match normalize_metadata metadata with
    | .error e => (.error (AddErr.normErr e), db)
    | .ok nmd =>
        if db.any (fun r => r.objectid == objectid) then (.ok false, db)
        else
          match insertLoop objectid nmd failAt with
          | .error e => (.error e, db)
          | .ok rows => (.ok true, db ++ rows)

/-- `MetadataStore.remove` (database.py lines 144-161): deletes all rows
of the objectid; raises `KeyError` (leaving the table unchanged, the
transaction being rolled back) when no row matched. -/
def MetadataStore.remove (db : Db) (objectid : String) :
    Except Unit Unit × Db :=
  if db.any (fun r => r.objectid == objectid) then
    (.ok (), db.filter (fun r => !(r.objectid == objectid)))
  else (.error (), db)

/-- Internal-consistency errors of `ResultBuilder`: a row with both
value columns NULL (`get_value` raises `Error`), and a reconstructed
record without the `hash` key (the `assert` in `next`). -/
inductive RBErr
  | noValue
  | missingHash
deriving DecidableEq, Repr

/-- `get_value` of `ResultBuilder`: the first non-NULL value column, in
`_TYPES` order (TEXT before INTEGER). -/
def getValue (r : DbRow) : Option PyValue :=
  match r.mvalue_str with
  | some s => some (.pstr s)
  | none =>
      match r.mvalue_int with
      | some n => some (.pint n)
      | none => none

/-- A reconstructed record: attribute key to bare scalar value, as
`ResultBuilder` returns it. -/
abbrev Record := List (String × PyValue)

/-- The first row of a group in `ResultBuilder.next`: its key/value
seed the dict unless `mkey` is falsy (the empty string), in which case
the dict starts empty and `get_value` is not called. -/
def rbStart (r : DbRow) : Except RBErr Record :=
  if r.mkey = "" then .ok []
  else
    match getValue r with
    | none => .error RBErr.noValue
    | some v => .ok [(r.mkey, v)]

/-- A subsequent row of a group: `dct[r[mkey]] = get_value(r)`. -/
def rbInsert (dct : Record) (r : DbRow) : Except RBErr Record :=
  match getValue r with
  | none => .error RBErr.noValue
  | some v => .ok (dictInsert dct r.mkey v)

/-- The grouping scan of `ResultBuilder`: rows with the same objectid
are folded into one record; at each group boundary the record must
contain `hash`. -/
def resultBuilderGo (rows : List DbRow) (oid : String) (dct : Record) :
    Except RBErr (List (String × Record)) :=
  match rows with
  | [] =>
      if (dictLookup dct "hash").isSome then .ok [(oid, dct)]
      else .error RBErr.missingHash
  | r :: rest =>
      if r.objectid = oid then
        match rbInsert dct r with
        | .error e => .error e
        | .ok dct' => resultBuilderGo rest oid dct'
      else
        if (dictLookup dct "hash").isSome then
          match rbStart r with
          | .error e => .error e
          | .ok dct0 =>
              match resultBuilderGo rest r.objectid dct0 with
              | .error e => .error e
              | .ok tail => .ok ((oid, dct) :: tail)
        else .error RBErr.missingHash

/-- `ResultBuilder` (database.py lines 324-379) applied to a full row
sequence. -/
def resultBuilder (rows : List DbRow) : Except RBErr (List (String × Record)) :=
  match rows with
  | [] => .ok []
  | r :: rest =>
      match rbStart r with
      | .error e => .error e
      | .ok dct0 => resultBuilderGo rest r.objectid dct0

/-- Errors of `MetadataStore.get`: `KeyError` for an unknown objectid,
or an internal `ResultBuilder` error. -/
inductive GetErr
  | keyError
  | rbErr (e : RBErr)
deriving DecidableEq, Repr

/-- `MetadataStore.get` (database.py lines 163-178): the record rebuilt
from the objectid's rows, `KeyError` when there are none. -/
def MetadataStore.get (db : Db) (objectid : String) : Except GetErr Record :=
  match resultBuilder (db.filter (fun r => r.objectid == objectid)) with
  | .error e => .error (GetErr.rbErr e)
  | .ok [] => .error GetErr.keyError
  | .ok (p :: _) => .ok p.2

/-- `MetadataStore.has_filehash` (database.py lines 180-196): is there
any row whose key is `hash` and whose text value is this digest. -/
def MetadataStore.has_filehash (db : Db) (filehash : String) : Bool :=
  db.any (fun r => r.mkey == "hash" && r.mvalue_str == some filehash)

/-- The two typed value columns a condition can address. -/
inductive Ty
  | tint
  | tstr
deriving DecidableEq, Repr

/-- One SQL predicate on an aliased instance of the metadata table, as
`_make_conditions` emits it.  `anotnull` translates the
`mvalue_{t} IS NOT NULL` branch of the source; that branch is
unreachable, because the source stores `iter(req.items())` in `req`
and a Python iterator object is always truthy, so the `if req:` loop
branch is taken even for an empty condition dict. -/
inductive Atom
  | aeq (t : Ty) (v : PyScalar)
  | alt (v : PyScalar)
  | agt (v : PyScalar)
  | anotnull (t : Ty)
deriving DecidableEq, Repr

/-- One compiled condition: the attribute key the table alias is
filtered on, and the value predicates ANDed onto that alias. -/
structure CompiledCond where
  key : String
  atoms : List Atom
deriving DecidableEq, Repr

/-- The exceptions `_make_conditions` raises, plus propagated
`ResultBuilder` errors: `TypeError` for a dict without `type`
(`missingTypeTag`), `TypeError` for a tag other than str/int
(`unknownDataType`), `TypeError` for a value that is no scalar and no
dict (`badConditionShape`), `ValueError` for an operator that is not
supported for the type (`unsupportedOperation`). -/
inductive QueryErr
  | missingTypeTag
  | unknownDataType
  | badConditionShape
  | unsupportedOperation
  | rbErr (e : RBErr)
deriving DecidableEq, Repr

/-- The operator loop of `_make_conditions`: `equal` for both types,
`lt`/`gt` only for `int`; the first unsupported operator raises. -/
def compileOps (t : Ty) (req : List (String × PyScalar)) :
    Except QueryErr (List Atom) :=
  match req with
  | [] => .ok []
  | (k, v) :: rest =>
      if k = "equal" then
        match compileOps t rest with
        | .error e => .error e
        | .ok tail => .ok (.aeq t v :: tail)
      else if t = Ty.tint ∧ k = "lt" then
        match compileOps t rest with
        | .error e => .error e
        | .ok tail => .ok (.alt v :: tail)
      else if t = Ty.tint ∧ k = "gt" then
        match compileOps t rest with
        | .error e => .error e
        | .ok tail => .ok (.agt v :: tail)
      else .error QueryErr.unsupportedOperation

/-- One step of `_make_conditions` (database.py lines 271-321): a bare
string or int is typed equality, an empty dict is bare key existence,
a non-empty dict pops `type` (raising when absent or unknown) and
compiles each remaining operator.  Because the `if req:` branch is
always taken for dicts (see `Atom`), a dict containing only `type`
compiles to zero value predicates. -/
def compileCond (kv : String × PyValue) : Except QueryErr CompiledCond :=
  match kv.2 with
  | .pstr s => .ok ⟨kv.1, [.aeq Ty.tstr (.pstr s)]⟩
  | .pint n => .ok ⟨kv.1, [.aeq Ty.tint (.pint n)]⟩
  | .pfloat => .error QueryErr.badConditionShape
  | .pdict [] => .ok ⟨kv.1, []⟩
  | .pdict (p :: ps) =>
      match dictPop (p :: ps) "type" with
      | none => .error QueryErr.missingTypeTag
      | some (t, req) =>
          match t with
          | .pstr "str" =>
              match compileOps Ty.tstr req with
              | .error e => .error e
              | .ok atoms => .ok ⟨kv.1, atoms⟩
          | .pstr "int" =>
              match compileOps Ty.tint req with
              | .error e => .error e
              | .ok atoms => .ok ⟨kv.1, atoms⟩
          | _ => .error QueryErr.unknownDataType

/-- Is the character a decimal digit. -/
def isDigitChar (c : Char) : Bool :=
  48 ≤ c.toNat && c.toNat ≤ 57

/-- Are the characters a non-empty run of decimal digits. -/
def isDigits (l : List Char) : Bool :=
  !l.isEmpty && l.all isDigitChar

/-- The numeric value of a run of decimal digits. -/
def digitsVal (l : List Char) : Nat :=
  l.foldl (fun acc c => acc * 10 + (c.toNat - 48)) 0

/-- Drops one optional leading sign character. -/
def stripSign : List Char → List Char
  | '+' :: r => r
  | '-' :: r => r
  | l => l

/-- The whitespace characters SQLite skips around a numeric literal
(space, tab, newline, vertical tab, form feed, carriage return). -/
def isSpaceChar (c : Char) : Bool :=
  c.toNat == 32 || (9 ≤ c.toNat && c.toNat ≤ 13)

/-- Strips leading and trailing whitespace. -/
def stripWs (l : List Char) : List Char :=
  ((l.dropWhile isSpaceChar).reverse.dropWhile isSpaceChar).reverse

/-- The NUMERIC-affinity conversion SQLite applies to a TEXT operand
compared against the INTEGER column: a well-formed integer literal
(optional whitespace around an optional sign followed by digits)
converts to the integer it denotes; any other text stays TEXT. -/
def sqliteTextToInt (s : String) : Option Int :=
  match stripWs s.data with
  | '-' :: r => if isDigits r then some (-(digitsVal r : Int)) else none
  | '+' :: r => if isDigits r then some ((digitsVal r : Int)) else none
  | l => if isDigits l then some ((digitsVal l : Int)) else none

/-- The decimal digits of a natural number (fuel-structural; the fuel
`n + 1` always suffices). -/
def natToDecAux : Nat → Nat → List Char
  | 0, _ => []
  | fuel + 1, n =>
      if n < 10 then [Char.ofNat (48 + n)]
      else natToDecAux fuel (n / 10) ++ [Char.ofNat (48 + n % 10)]

/-- The canonical decimal rendering of an integer — the TEXT-affinity
conversion SQLite applies to an INTEGER operand compared against the
TEXT column. -/
def intToText : Int → String
  | .ofNat n => ⟨natToDecAux (n + 1) n⟩
  | .negSucc n => ⟨'-' :: natToDecAux (n + 2) (n + 1)⟩

/-- Does an exponent tail (empty, or `e`/`E`, optional sign, digits)
follow the mantissa of a numeric literal. -/
def expTail : List Char → Bool
  | [] => true
  | 'e' :: r => isDigits (stripSign r)
  | 'E' :: r => isDigits (stripSign r)
  | _ => false

/-- Is the string a well-formed SQLite numeric literal (integer or
real): optional surrounding whitespace and sign, then digits with an
optional decimal point and an optional exponent.  SQLite's affinity
conversion turns exactly such text into a number before comparing. -/
def isWellFormedNumeric (s : String) : Bool :=
  let l := stripSign (stripWs s.data)
  let d1 := l.takeWhile isDigitChar
  let r1 := l.dropWhile isDigitChar
  match r1 with
  | [] => !d1.isEmpty
  | '.' :: r2 =>
      let d2 := r2.takeWhile isDigitChar
      let r3 := r2.dropWhile isDigitChar
      (!d1.isEmpty || !d2.isEmpty) && expTail r3
  | 'e' :: r2 => !d1.isEmpty && isDigits (stripSign r2)
  | 'E' :: r2 => !d1.isEmpty && isDigits (stripSign r2)
  | _ => false

/-- Value of one compiled predicate on one row, following SQLite
comparison semantics with column affinity: NULL compares false; the
TEXT column applies TEXT affinity to an integer parameter (its
canonical decimal rendering, compared as text); the INTEGER column
applies NUMERIC affinity to a text parameter (a well-formed integer
literal converts and compares numerically, any other text keeps the
TEXT storage class, which an INTEGER never equals and always orders
before).  Float parameters and real-literal text parameters carry a
value the collapsed `pfloat` cannot represent; they are excluded from
every theorem below by the `atomModeled` hypothesis. -/
def evalAtom (r : DbRow) : Atom → Bool
  | .aeq Ty.tstr v =>
      match r.mvalue_str, v with
      | some s, .pstr s2 => s = s2
      | some s, .pint n => s = intToText n
      | _, _ => false
  | .aeq Ty.tint v =>
      match r.mvalue_int, v with
      | some n, .pint n2 => n = n2
      | some n, .pstr s =>
          match sqliteTextToInt s with
          | some k => n = k
          | none => false
      | _, _ => false
  | .alt v =>
      match r.mvalue_int, v with
      | some n, .pint m => n < m
      | some n, .pstr s =>
          match sqliteTextToInt s with
          | some k => n < k
          | none => true
      | _, _ => false
  | .agt v =>
      match r.mvalue_int, v with
      | some n, .pint m => m < n
      | some n, .pstr s =>
          match sqliteTextToInt s with
          | some k => k < n
          | none => false
      | _, _ => false
  | .anotnull Ty.tstr => r.mvalue_str.isSome
  | .anotnull Ty.tint => r.mvalue_int.isSome

/-- Is an operand value compared against the INTEGER column within the
model: an integer, or text that is either a well-formed integer
literal (converted exactly) or not numeric at all (kept as TEXT).
What is excluded is a float, and text that is a real-but-not-integer
literal (such as `5.0` or `1e3`), whose converted value the collapsed
`pfloat` cannot carry. -/
def intOperandModeled : PyScalar → Bool
  | .pint _ => true
  | .pfloat => false
  | .pstr s => (sqliteTextToInt s).isSome || !isWellFormedNumeric s

/-- Is one compiled predicate within the model: only float operands
and real-literal text operands against the INTEGER column fall
outside it. -/
def atomModeled : Atom → Bool
  | .aeq Ty.tstr v => !(v == PyScalar.pfloat)
  | .aeq Ty.tint v => intOperandModeled v
  | .alt v => intOperandModeled v
  | .agt v => intOperandModeled v
  | .anotnull _ => true

/-- Does a row satisfy one aliased instance: key filter plus all value
predicates of that condition. -/
def rowSat (r : DbRow) (c : CompiledCond) : Bool :=
  r.mkey == c.key && c.atoms.all (evalAtom r)

/-- Number of rows of an entity matching one condition: the number of
join partners the corresponding alias contributes. -/
def countMatches (db : Db) (oid : String) (c : CompiledCond) : Nat :=
  (db.filter (fun r => r.objectid == oid && rowSat r c)).length

/-- Number of join-tuple combinations the non-leading aliases
contribute for one leading row. -/
def comboCount (db : Db) (oid : String) (rest : List CompiledCond) : Nat :=
  (rest.map (countMatches db oid)).foldl (· * ·) 1

/-- The objectid column of the inner self-join query, with join
multiplicities: one occurrence per combination of matching rows across
all aliases. -/
def joinIds (db : Db) (c0 : CompiledCond) (rest : List CompiledCond) :
    List String :=
  (db.filter (fun r => rowSat r c0)).flatMap
    (fun r => List.replicate (comboCount db r.objectid rest) r.objectid)

/-- `LIMIT`: take the first n rows when a limit is given. -/
def takeOpt : Option Nat → List String → List String
  | none, l => l
  | some n, l => l.take n

/-- `SELECT DISTINCT objectid`: first occurrence of each id, in row
order. -/
def dedupKeepFirst (l : List String) : List String :=
  match l with
  | [] => []
  | x :: rest =>
      if rest.contains x then
        x :: (dedupKeepFirst rest).filter (fun y => y ≠ x)
      else x :: dedupKeepFirst rest

/-- Insertion step for sorting rows by objectid (the outer query's
`ORDER BY objectid`, BINARY collation). -/
def sortRowsInsert (r : DbRow) (l : List DbRow) : List DbRow :=
  match l with
  | [] => [r]
  | q :: rest =>
      if strLe r.objectid q.objectid then r :: q :: rest
      else q :: sortRowsInsert r rest

/-- Sorts rows by objectid. -/
def sortRows (l : List DbRow) : List DbRow :=
  match l with
  | [] => []
  | r :: rest => sortRowsInsert r (sortRows rest)

/-- The full consumption of the `_make_conditions` generator, as
`query_all` performs it before executing anything: compile each
condition in order, stopping at the first error. -/
def compileAll : List (String × PyValue) → Except QueryErr (List CompiledCond)
  | [] => .ok []
  | c :: rest =>
      match compileCond c with
      | .error e => .error e
      | .ok cc =>
          match compileAll rest with
          | .error e => .error e
          | .ok tail => .ok (cc :: tail)

/-- `MetadataStore.query_all` (database.py lines 215-269): with no
conditions, all distinct objectids up to the limit; otherwise the
compiled self-join produces the id multiset, the limit cuts it, and the
outer query re-selects every row of the surviving ids ordered by
objectid, which `ResultBuilder` regroups into full records. -/
def MetadataStore.query_all (db : Db) (conditions : List (String × PyValue))
    (limit : Option Nat) : Except QueryErr (List (String × Record)) :=
  match conditions with
  | [] =>
      let ids := takeOpt limit (dedupKeepFirst (db.map (fun r => r.objectid)))
      match resultBuilder
          (sortRows (db.filter (fun r => ids.contains r.objectid))) with
      | .error e => .error (QueryErr.rbErr e)
      | .ok res => .ok res
  | _ :: _ =>
      match compileAll conditions with
      | .error e => .error e
      | .ok [] => .ok []
      | .ok (c0 :: rest) =>
          let ids := takeOpt limit (joinIds db c0 rest)
          match resultBuilder
              (sortRows (db.filter (fun r => ids.contains r.objectid))) with
          | .error e => .error (QueryErr.rbErr e)
          | .ok res => .ok res

/-- `hash_file` (__init__.py lines 34-41): the SHA-1 of `file\n`
followed by the content, modelled by the hashed byte stream itself. -/
def hash_file (content : String) : String := "file\n" ++ content

/-- The observable state of a `FileStore`: the set of content digests
that currently have a blob under `objects/` (the two-level shard path
is a bijective function of the digest, so the blob tree is modelled by
the digest list), and the metadata table. -/
structure Store where
  objects : List String
  db : Db
deriving DecidableEq, Repr

/-- Exceptions out of `FileStore.add_file`: `hash_metadata` raised
(before anything is written), or `metadata.add` raised (after which the
`except BaseException` handler removed the stored blob). -/
inductive AddFileErr
  | hashErr (e : HashMetaErr)
  | dbErr (e : AddErr)
deriving DecidableEq, Repr

/-- `FileStore.add_file` (__init__.py lines 255-286), file-object
branch: hash the content, set `metadata[hash]`, compute the objectid,
copy the blob unless one already exists for that digest, then insert
the metadata row; if the insertion raises, `os.remove(storedfile)`
deletes the blob unconditionally (whether or not this call created it)
and the exception propagates. -/
def FileStore.add_file (s : Store) (content : String) (metadata : RawMetadata)
    (failAt : Option Nat) : Except AddFileErr String × Store :=
  let filehash := hash_file content
  let md := dictInsert metadata "hash" (.pstr filehash)
  match hash_metadata md with
  | .error e => (.error (AddFileErr.hashErr e), s)
  | .ok objectid =>
      let objects' :=
        if s.objects.contains filehash then s.objects
        else s.objects ++ [filehash]
      match MetadataStore.add s.db objectid md failAt with
      | (.ok _, db') => (.ok objectid, ⟨objects', db'⟩)
      | (.error e, db') =>
          (.error (AddFileErr.dbErr e),
           ⟨objects'.filter (fun h => !(h == filehash)), db'⟩)

/-- Exceptions out of `FileStore.remove`: lookup failures from `get`,
a non-string `hash` value (`_make_filename` would raise), the
`KeyError` of `metadata.remove`, and the `OSError` of deleting a blob
that is not on disk (`os.remove` is not idempotent). -/
inductive RemoveErr
  | getErr (e : GetErr)
  | badHashValue
  | removeKeyErr
  | gcIoErr
deriving DecidableEq, Repr

/-- `FileStore.remove` (__init__.py lines 327-342): fetch the entry,
delete its metadata rows, then garbage-collect the blob exactly when no
remaining row references its digest. -/
def FileStore.remove (s : Store) (objectid : String) :
    Except RemoveErr Unit × Store :=
  match MetadataStore.get s.db objectid with
  | .error e => (.error (RemoveErr.getErr e), s)
  | .ok md =>
      match dictLookup md "hash" with
      | some (.pstr h) =>
          match MetadataStore.remove s.db objectid with
          | (.error _, db') => (.error RemoveErr.removeKeyErr, ⟨s.objects, db'⟩)
          | (.ok _, db') =>
              if MetadataStore.has_filehash db' h then (.ok (), ⟨s.objects, db'⟩)
              else if s.objects.contains h then
                (.ok (), ⟨s.objects.filter (fun x => !(x == h)), db'⟩)
              else (.error RemoveErr.gcIoErr, ⟨s.objects, db'⟩)
      | _ => (.error RemoveErr.badHashValue, s)

/-- A filesystem path, as the list of its components from the root. -/
abbrev FPath := List String

/-- A filesystem node: a regular file with content, a directory, or a
symbolic link.  Link targets are stored in canonical (realpath) form;
the model assumes a canonical-key filesystem in which link targets
refer to non-link nodes, which covers every scenario the claims about
`hash_directory` describe. -/
inductive FsNode
  | file (content : String)
  | dir
  | link (target : FPath)
deriving DecidableEq, Repr

/-- A filesystem: a finite map from canonical paths to nodes. -/
structure Fs where
  nodes : List (FPath × FsNode)
deriving DecidableEq, Repr

/-- Node lookup at a canonical path. -/
def fsFind (fs : Fs) (p : FPath) : Option FsNode :=
  match fs.nodes.find? (fun q => q.1 = p) with
  | some q => some q.2
  | none => none

/-- One component step of `os.path.realpath`: follow a link at the
resolved position, else append the component. -/
def realpathStep (fs : Fs) (acc : FPath) (c : String) : FPath :=
  match fsFind fs (acc ++ [c]) with
  | some (.link t) => t
  | _ => acc ++ [c]

/-- `os.path.realpath`: resolve each component left to right. -/
def realpath (fs : Fs) (p : FPath) : FPath :=
  p.foldl (realpathStep fs) []

/-- `os.path.islink`: is the final component, at its resolved position,
a symbolic link. -/
def islink (fs : Fs) (p : FPath) : Bool :=
  match p.getLast? with
  | none => false
  | some c =>
      match fsFind fs (realpath fs p.dropLast ++ [c]) with
      | some (.link _) => true
      | _ => false

/-- The link target at a path (the resolved `os.readlink` composed with
`realpath`, which is what `relativize_link` computes). -/
def linkTarget (fs : Fs) (p : FPath) : Option FPath :=
  match p.getLast? with
  | none => none
  | some c =>
      match fsFind fs (realpath fs p.dropLast ++ [c]) with
      | some (.link t) => some t
      | _ => none

/-- `os.path.isdir` (follows links). -/
def isdir (fs : Fs) (p : FPath) : Bool :=
  match fsFind fs (realpath fs p) with
  | some .dir => true
  | _ => false

/-- Is `a` a leading segment of `b` (not necessarily proper). -/
def leadSeg : FPath → FPath → Bool
  | [], _ => true
  | _ :: _, [] => false
  | a :: as, b :: bs => a == b && leadSeg as bs

/-- Insertion step for sorting entry names (`sorted(os.listdir(..))`). -/
def sortStringsInsert (s : String) (l : List String) : List String :=
  match l with
  | [] => [s]
  | x :: rest => if strLe s x then s :: x :: rest else x :: sortStringsInsert s rest

/-- Sorts entry names in code-point order. -/
def sortStrings (l : List String) : List String :=
  match l with
  | [] => []
  | s :: rest => sortStringsInsert s (sortStrings rest)

/-- `os.listdir`: the entry names directly under the resolved path, in
sorted order as `hash_directory` consumes them. -/
def listdirSorted (fs : Fs) (p : FPath) : List String :=
  let rp := realpath fs p
  sortStrings (fs.nodes.filterMap (fun q =>
    if q.1 ≠ [] ∧ q.1.dropLast = rp then q.1.getLast? else none))

/-- Strips the common leading components of two paths. -/
def stripCommon : FPath → FPath → FPath × FPath
  | a :: as, b :: bs =>
      if a = b then stripCommon as bs else (a :: as, b :: bs)
  | a, b => (a, b)

/-- `os.path.relpath target base` on canonical paths: `..` for each
remaining base component, then the remaining target components, `.`
when both are empty. -/
def relpath (target base : FPath) : String :=
  let (bt, tt) := stripCommon base target
  let parts := List.replicate bt.length ".." ++ tt
  if parts.isEmpty then "." else String.intercalate "/" parts

/-- `relativize_link` (__init__.py lines 56-68): the relative form of
the link when its resolved target is strictly inside the root (the
`commonprefix` test against `root + os.sep`), else `none`. -/
def relativize_link (fs : Fs) (lnk : FPath) (root : FPath) : Option String :=
  match linkTarget fs lnk with
  | none => none
  | some target =>
      let rootR := realpath fs root
      if leadSeg rootR target ∧ target ≠ rootR then
        some (relpath target (realpath fs lnk.dropLast))
      else none

/-- Exceptions out of `hash_directory`: the loop-detected `ValueError`,
an `OSError`/`IOError` from listing or opening a path, and the
modelling artifact of bounded recursion fuel (never returned when the
fuel exceeds the number of filesystem nodes, see
`hash_directory_fuel_irrelevant`-style lemmas below). -/
inductive HashDirErr
  | loopDetected
  | ioError
  | outOfFuel
deriving DecidableEq, Repr

/-- The entry loop of `hash_directory`: folds one
`<kind> <name> <digest>\n` line per sorted entry into the digest
stream, recursing through `rec` (the fuel-limited `hash_directory`)
for subdirectories.  The mutated `visited` set is threaded through and
returned, as the Python set object is shared along the recursion. -/
def hashEntries (fs : Fs) (path root : FPath)
    (rec : FPath → List FPath → Except HashDirErr (String × List FPath)) :
    List String → List FPath → String → Except HashDirErr (String × List FPath)
  | [], visited, acc => .ok (acc, visited)
  | f :: rest, visited, acc =>
      let pf := path ++ [f]
      let relForm :=
        if islink fs pf then relativize_link fs pf root else none
      match relForm with
      | some rel =>
          hashEntries fs path root rec rest visited
            (acc ++ "link " ++ f ++ " " ++ rel ++ "\n")
      | none =>
          if isdir fs pf then
            match rec pf visited with
            | .error e => .error e
            | .ok (h, visited') =>
                hashEntries fs path root rec rest visited'
                  (acc ++ "dir " ++ f ++ " " ++ h ++ "\n")
          else
            match fsFind fs (realpath fs pf) with
            | some (.file content) =>
                hashEntries fs path root rec rest visited
                  (acc ++ "file " ++ f ++ " " ++ hash_file content ++ "\n")
            | _ => .error HashDirErr.ioError

/-- `hash_directory` (__init__.py lines 71-104): raises when the
resolved path was already visited, records it, lists the sorted
entries and folds their lines into a digest stream starting with
`dir\n`.  In-tree links are hashed by their relative-path string,
out-of-tree links are dereferenced (directories among them recursed
into, which is where a loop can close).  The SHA-1 digest is modelled
by the hashed byte stream; recursion depth is bounded by fuel. -/
def hash_directory (fs : Fs) :
    Nat → FPath → FPath → List FPath → Except HashDirErr (String × List FPath)
  | 0, _, _, _ => .error HashDirErr.outOfFuel
  | fuel + 1, path, root, visited =>
      let rp := realpath fs path
      if visited.contains rp then .error HashDirErr.loopDetected
      else
        match fsFind fs rp with
        | some .dir =>
            hashEntries fs path root (fun p v => hash_directory fs fuel p root v)
              (listdirSorted fs path) (rp :: visited) "dir\n"
        | _ => .error HashDirErr.ioError

/-- The top-level call `hash_directory(path)` with `root=None`: the
root defaults to the resolved path and the visited set starts empty. -/
def hashDirectoryTop (fs : Fs) (fuel : Nat) (path : FPath) :
    Except HashDirErr String :=
  match hash_directory fs fuel path (realpath fs path) [] with
  | .error e => .error e
  | .ok (h, _) => .ok h

section HelperLemmas

theorem dictPop_none_iff {α : Type} (d : List (String × α)) (k : String) :
    dictPop d k = none ↔ k ∉ d.map Prod.fst := by
  induction d with
  | nil => simp [dictPop]
  | cons p rest ih =>
      obtain ⟨k0, v0⟩ := p
      by_cases hk : k0 = k
      · subst hk
        simp [dictPop]
      · simp only [dictPop, if_neg hk, List.map_cons, List.mem_cons]
        cases h : dictPop rest k with
        | none =>
            have hmem := ih.mp h
            simp [Ne.symm hk, hmem]
        | some pr =>
            obtain ⟨v, r⟩ := pr
            have hmem : k ∈ rest.map Prod.fst := by
              by_contra hno
              have := ih.mpr hno
              rw [h] at this
              cases this
            simp [hmem]

theorem dictPop_some_keys {α : Type} (d : List (String × α)) (k : String) :
    ∀ v r, dictPop d k = some (v, r) →
      r.map Prod.fst = (d.map Prod.fst).erase k ∧ k ∈ d.map Prod.fst := by
  induction d with
  | nil => intro v r h; simp [dictPop] at h
  | cons p rest ih =>
      intro v r h
      obtain ⟨k0, v0⟩ := p
      by_cases hk : k0 = k
      · subst hk
        simp [dictPop] at h
        obtain ⟨h1, h2⟩ := h
        subst h2
        exact ⟨by simp [List.erase_cons_head], by simp⟩
      · simp only [dictPop, if_neg hk] at h
        cases hrec : dictPop rest k with
        | none => rw [hrec] at h; cases h
        | some pr =>
            obtain ⟨v', r'⟩ := pr
            rw [hrec] at h
            simp only [Option.some.injEq, Prod.mk.injEq] at h
            obtain ⟨h1, h2⟩ := h
            obtain ⟨hkeys, hmem⟩ := ih v' r' hrec
            subst h2
            refine ⟨?_, by simp [hmem]⟩
            simp only [List.map_cons, List.erase_cons]
            have hne : (k0 == k) = false := by
              simp [hk]
            rw [hne]
            simp [hkeys]

theorem dictLookup_none_iff {α : Type} (d : List (String × α)) (k : String) :
    dictLookup d k = none ↔ k ∉ d.map Prod.fst := by
  induction d with
  | nil => simp [dictLookup]
  | cons p rest ih =>
      obtain ⟨k0, v0⟩ := p
      by_cases hk : k0 = k
      · subst hk; simp [dictLookup]
      · simp [dictLookup, if_neg hk, ih, Ne.symm hk]

theorem dictLookup_isSome_iff {α : Type} (d : List (String × α)) (k : String) :
    (dictLookup d k).isSome = true ↔ k ∈ d.map Prod.fst := by
  rw [← Decidable.not_iff_not, ← dictLookup_none_iff d k]
  cases dictLookup d k <;> simp

end HelperLemmas

section NormalizeShape

/-- The shapes of metadata value the source actually accepts: bare
ints, bare strings, and dicts whose key multiset is exactly
`type`, `value` (with any tag). -/
def acceptedValueShape : PyValue → Prop
  | .pint _ => True
  | .pstr _ => True
  | .pfloat => False
  | .pdict ps => List.Perm (ps.map Prod.fst) ["type", "value"]

theorem normalizeValue_isOk_iff (v : PyValue) :
    (normalizeValue v).isOk = true ↔ acceptedValueShape v := by
  cases v with
  | pint n => simp [normalizeValue, acceptedValueShape, Except.isOk, Except.toBool]
  | pstr s => simp [normalizeValue, acceptedValueShape, Except.isOk, Except.toBool]
  | pfloat => simp [normalizeValue, acceptedValueShape, Except.isOk, Except.toBool]
  | pdict ps =>
      rcases h1 : dictPop ps "type" with - | ⟨t, r1⟩
      · simp only [normalizeValue, h1, acceptedValueShape, Except.isOk,
          Except.toBool]
        rw [dictPop_none_iff] at h1
        constructor
        · intro hcon; cases hcon
        · intro hperm
          exact absurd (hperm.mem_iff.mpr (by simp)) h1
      · obtain ⟨hr1, htype⟩ := dictPop_some_keys ps "type" t r1 h1
        have hps : List.Perm (ps.map Prod.fst) ("type" :: r1.map Prod.fst) := by
          rw [hr1]
          exact List.perm_cons_erase htype
        have hiff1 : List.Perm (ps.map Prod.fst) ["type", "value"] ↔
            List.Perm (r1.map Prod.fst) ["value"] := by
          constructor
          · intro h
            exact (hps.symm.trans h).cons_inv
          · intro h
            exact hps.trans (h.cons "type")
        rcases h2 : dictPop r1 "value" with - | ⟨w, r2⟩
        · simp only [normalizeValue, h1, h2, acceptedValueShape, Except.isOk,
            Except.toBool]
          rw [hiff1]
          rw [dictPop_none_iff] at h2
          constructor
          · intro hcon; cases hcon
          · intro hperm
            exact absurd (hperm.mem_iff.mpr (by simp)) h2
        · obtain ⟨hr2, hvalue⟩ := dictPop_some_keys r1 "value" w r2 h2
          have hr1p : List.Perm (r1.map Prod.fst)
              ("value" :: r2.map Prod.fst) := by
            rw [hr2]
            exact List.perm_cons_erase hvalue
          have hiff2 : List.Perm (r1.map Prod.fst) ["value"] ↔ r2 = [] := by
            constructor
            · intro h
              have hnil : List.Perm (r2.map Prod.fst) [] :=
                (hr1p.symm.trans h).cons_inv
              have hmap : r2.map Prod.fst = [] := hnil.eq_nil
              cases r2 with
              | nil => rfl
              | cons a l => simp at hmap
            · intro h
              subst h
              simpa using hr1p
          simp only [normalizeValue, h1, h2, acceptedValueShape, Except.isOk,
            Except.toBool]
          rw [hiff1, hiff2]
          by_cases hemp : r2.isEmpty
          · have hr2nil : r2 = [] := by
              cases r2 with
              | nil => rfl
              | cons a l => simp [List.isEmpty] at hemp
            simp [hemp, hr2nil]
          · have hr2ne : r2 ≠ [] := by
              intro hcon
              subst hcon
              simp [List.isEmpty] at hemp
            simp [hemp, hr2ne]

theorem normalize_metadata_isOk_iff (md : RawMetadata) :
    (normalize_metadata md).isOk = true ↔
      ∀ p ∈ md, acceptedValueShape p.2 := by
  induction md with
  | nil => simp [normalize_metadata, Except.isOk, Except.toBool]
  | cons p rest ih =>
      obtain ⟨k, v⟩ := p
      simp only [normalize_metadata]
      cases hv : normalizeValue v with
      | error e =>
          simp only [Except.isOk, Except.toBool, List.mem_cons]
          constructor
          · intro hcon; cases hcon
          · intro hall
            have := (normalizeValue_isOk_iff v).mpr (hall (k, v) (Or.inl rfl))
            rw [hv] at this
            simp [Except.isOk, Except.toBool] at this
      | ok nv =>
          have hshape : acceptedValueShape v := by
            have := (normalizeValue_isOk_iff v).mp (by
              rw [hv]; rfl)
            exact this
          cases hrest : normalize_metadata rest with
          | error e =>
              simp only [Except.isOk, Except.toBool, List.mem_cons]
              constructor
              · intro hcon; cases hcon
              · intro hall
                have := ih.mpr (fun q hq => hall q (Or.inr hq))
                rw [hrest] at this
                simp [Except.isOk, Except.toBool] at this
          | ok tail =>
              simp only [Except.isOk, Except.toBool, List.mem_cons]
              constructor
              · intro _
                intro q hq
                rcases hq with hq | hq
                · subst hq; exact hshape
                · have := ih.mp (by rw [hrest]; rfl)
                  exact this q hq
              · intro _; trivial

end NormalizeShape

section MetadataHashInvariance

theorem normalizeValue_normToRaw (nv : NormValue) :
    normalizeValue (normToRaw nv) = .ok nv := by
  obtain ⟨t, v⟩ := nv
  simp [normalizeValue, normToRaw, dictPop]

theorem normalize_normMetaToRaw (nmd : NormMetadata) :
    normalize_metadata (normMetaToRaw nmd) = .ok nmd := by
  induction nmd with
  | nil => rfl
  | cons p rest ih =>
      obtain ⟨k, nv⟩ := p
      simp only [normMetaToRaw, List.map_cons, normalize_metadata,
        normalizeValue_normToRaw]
      simp only [normMetaToRaw] at ih
      rw [ih]

theorem normalize_keys (md : RawMetadata) (nmd : NormMetadata)
    (h : normalize_metadata md = .ok nmd) :
    nmd.map Prod.fst = md.map Prod.fst := by
  induction md generalizing nmd with
  | nil =>
      simp [normalize_metadata] at h
      subst h
      rfl
  | cons p rest ih =>
      obtain ⟨k, v⟩ := p
      simp only [normalize_metadata] at h
      cases hv : normalizeValue v with
      | error e => rw [hv] at h; cases h
      | ok nv =>
          rw [hv] at h
          cases hrest : normalize_metadata rest with
          | error e => rw [hrest] at h; cases h
          | ok tail =>
              rw [hrest] at h
              simp only [Except.ok.injEq] at h
              subst h
              simp [ih tail hrest]

theorem normMetaToRaw_keys (nmd : NormMetadata) :
    (normMetaToRaw nmd).map Prod.fst = nmd.map Prod.fst := by
  induction nmd with
  | nil => rfl
  | cons p rest ih => simp [normMetaToRaw] at ih ⊢

end MetadataHashInvariance

/-- C6 counterexample: a value with the explicit type tag `float`
(outside the two supported kinds) in a well-formed `type`/`value` dict
is accepted by `normalize_metadata`, which the claim says must fail. -/
theorem c6_counterexample :
    normalize_metadata
        [("k", PyValue.pdict [("type", PyScalar.pstr "float"),
                              ("value", PyScalar.pint 0)])] =
      Except.ok [("k", (PyScalar.pstr "float", PyScalar.pint 0))] := by
  decide

/-- C6 (amended): `normalize_metadata` accepts exactly the bare ints,
bare strings, and dicts with precisely the keys `type` and `value`;
it rejects floats, nested non-tagged structures and dicts with extra or
missing keys, but it does not validate the type tag itself: any tag is
accepted (unsupported tags only fail later, in `hash_metadata` or at
the SQL layer). -/
theorem c6_normalize_accepts_exactly_shapes (md : RawMetadata) :
    (normalize_metadata md).isOk = true ↔ ∀ p ∈ md, acceptedValueShape p.2 :=
  normalize_metadata_isOk_iff md

theorem hash_metadata_of_norm (md : RawMetadata) (nmd : NormMetadata)
    (hh : dictLookup md "hash" ≠ none)
    (hn : normalize_metadata md = .ok nmd) :
    hash_metadata md = encodeItems (sortItems nmd) := by
  unfold hash_metadata
  rw [hn]
  simp [Option.isNone_iff_eq_none, hh]

/-- C10: the metadata hash is invariant under normalization: for a raw
mapping containing `hash` that normalizes successfully,
`hash_metadata` of the normalized form (fed back as a raw dict) equals
`hash_metadata` of the original; moreover any two raw mappings with
the same normalization (e.g. a bare scalar and its tagged spelling)
hash to the same EntityId. -/
theorem c10_hash_metadata_normalize_invariant (md : RawMetadata)
    (nmd : NormMetadata)
    (hhash : (dictLookup md "hash").isSome = true)
    (hnorm : normalize_metadata md = .ok nmd) :
    hash_metadata (normMetaToRaw nmd) = hash_metadata md ∧
    ∀ md2, (dictLookup md2 "hash").isSome = true →
      normalize_metadata md2 = .ok nmd →
      hash_metadata md2 = hash_metadata md := by
  have hkeys : nmd.map Prod.fst = md.map Prod.fst := normalize_keys md nmd hnorm
  have hsome_ne : ∀ (d : RawMetadata), (dictLookup d "hash").isSome = true →
      dictLookup d "hash" ≠ none := by
    intro d hd hcon
    rw [hcon] at hd
    simp at hd
  have hhash2 : (dictLookup (normMetaToRaw nmd) "hash").isSome = true := by
    rw [dictLookup_isSome_iff, normMetaToRaw_keys, hkeys]
    rw [dictLookup_isSome_iff] at hhash
    exact hhash
  have hmd : hash_metadata md = encodeItems (sortItems nmd) :=
    hash_metadata_of_norm md nmd (hsome_ne md hhash) hnorm
  constructor
  · rw [hash_metadata_of_norm (normMetaToRaw nmd) nmd (hsome_ne _ hhash2)
      (normalize_normMetaToRaw nmd), hmd]
  · intro md2 hh2 hn2
    rw [hash_metadata_of_norm md2 nmd (hsome_ne md2 hh2) hn2, hmd]

/-- C10 witness: concrete invariance, including the bare scalar versus
tagged spelling of the same record. -/
theorem c10_witness :
    (dictLookup [("hash", PyValue.pstr "h"), ("a", PyValue.pint 5)]
        "hash").isSome = true ∧
    normalize_metadata [("hash", PyValue.pstr "h"), ("a", PyValue.pint 5)] =
      .ok [("hash", (PyScalar.pstr "str", PyScalar.pstr "h")),
           ("a", (PyScalar.pstr "int", PyScalar.pint 5))] ∧
    hash_metadata (normMetaToRaw
        [("hash", (PyScalar.pstr "str", PyScalar.pstr "h")),
         ("a", (PyScalar.pstr "int", PyScalar.pint 5))]) =
      hash_metadata [("hash", PyValue.pstr "h"), ("a", PyValue.pint 5)] ∧
    hash_metadata
        [("hash", PyValue.pdict [("type", PyScalar.pstr "str"),
                                 ("value", PyScalar.pstr "h")]),
         ("a", PyValue.pdict [("type", PyScalar.pstr "int"),
                              ("value", PyScalar.pint 5)])] =
      hash_metadata [("hash", PyValue.pstr "h"), ("a", PyValue.pint 5)] := by
  refine ⟨by decide, by decide, ?_, ?_⟩
  · exact (c10_hash_metadata_normalize_invariant
      [("hash", PyValue.pstr "h"), ("a", PyValue.pint 5)]
      [("hash", (PyScalar.pstr "str", PyScalar.pstr "h")),
       ("a", (PyScalar.pstr "int", PyScalar.pint 5))]
      (by decide) (by decide)).1
  · exact (c10_hash_metadata_normalize_invariant
      [("hash", PyValue.pstr "h"), ("a", PyValue.pint 5)]
      [("hash", (PyScalar.pstr "str", PyScalar.pstr "h")),
       ("a", (PyScalar.pstr "int", PyScalar.pint 5))]
      (by decide) (by decide)).2
      [("hash", PyValue.pdict [("type", PyScalar.pstr "str"),
                               ("value", PyScalar.pstr "h")]),
       ("a", PyValue.pdict [("type", PyScalar.pstr "int"),
                            ("value", PyScalar.pint 5)])]
      (by decide) (by decide)



section AddLemmas

/-- A normalized value that the INSERT can bind: the tag names one of
the two value columns and the value matches the column type.  Every
record that `hash_metadata` accepts and every record produced from
bare scalars is well typed. -/
def wellTypedVal : NormValue → Prop
  | (t, v) =>
      (t = PyScalar.pstr "int" ∧ ∃ n, v = PyScalar.pint n) ∨
      (t = PyScalar.pstr "str" ∧ ∃ s, v = PyScalar.pstr s)

/-- The rows the INSERT loop writes for a record, one per attribute. -/
def rowsOf (oid : String) (nmd : NormMetadata) : List DbRow :=
  nmd.filterMap (fun p => encodeRow oid p.1 p.2)

theorem encodeRow_of_wellTyped (oid k : String) (nv : NormValue)
    (h : wellTypedVal nv) : ∃ row, encodeRow oid k nv = some row ∧
      row.objectid = oid ∧ row.mkey = k := by
  obtain ⟨t, v⟩ := nv
  rcases h with ⟨ht, n, hv⟩ | ⟨ht, s, hv⟩ <;> subst ht <;> subst hv
  · exact ⟨⟨oid, k, none, some n⟩, rfl, rfl, rfl⟩
  · exact ⟨⟨oid, k, some s, none⟩, rfl, rfl, rfl⟩

theorem rowsOf_cons_of_wellTyped (oid k : String) (nv : NormValue)
    (rest : NormMetadata) (h : wellTypedVal nv) :
    ∃ row, encodeRow oid k nv = some row ∧
      rowsOf oid ((k, nv) :: rest) = row :: rowsOf oid rest := by
  obtain ⟨row, henc, -, -⟩ := encodeRow_of_wellTyped oid k nv h
  exact ⟨row, henc, by simp [rowsOf, henc]⟩

theorem insertLoop_cases (oid : String) (nmd : NormMetadata)
    (hwt : ∀ p ∈ nmd, wellTypedVal p.2) (failAt : Option Nat) :
    insertLoop oid nmd failAt = .error AddErr.injectedErr ∨
    insertLoop oid nmd failAt = .ok (rowsOf oid nmd) := by
  induction nmd generalizing failAt with
  | nil => right; rfl
  | cons p rest ih =>
      obtain ⟨k, nv⟩ := p
      by_cases hf : failAt = some 0
      · left
        simp [insertLoop, hf]
      · obtain ⟨row, henc, hrows⟩ := rowsOf_cons_of_wellTyped oid k nv rest
          (hwt (k, nv) (by simp))
        have ihr := ih (fun q hq => hwt q (by simp [hq]))
          (failAt.map Nat.pred)
        rcases ihr with ihr | ihr
        · left
          simp [insertLoop, hf, henc, ihr]
        · right
          simp [insertLoop, hf, henc, ihr, hrows]

theorem insertLoop_none (oid : String) (nmd : NormMetadata)
    (hwt : ∀ p ∈ nmd, wellTypedVal p.2) :
    insertLoop oid nmd none = .ok (rowsOf oid nmd) := by
  induction nmd with
  | nil => rfl
  | cons p rest ih =>
      obtain ⟨k, nv⟩ := p
      obtain ⟨row, henc, hrows⟩ := rowsOf_cons_of_wellTyped oid k nv rest
        (hwt (k, nv) (by simp))
      have ihr := ih (fun q hq => hwt q (by simp [hq]))
      simp [insertLoop, henc, ihr, hrows]

theorem rowsOf_keys (oid : String) (nmd : NormMetadata)
    (hwt : ∀ p ∈ nmd, wellTypedVal p.2) :
    (rowsOf oid nmd).map (fun r => r.mkey) = nmd.map Prod.fst ∧
    ∀ r ∈ rowsOf oid nmd, r.objectid = oid := by
  induction nmd with
  | nil => exact ⟨rfl, by intro r hr; cases hr⟩
  | cons p rest ih =>
      obtain ⟨k, nv⟩ := p
      obtain ⟨row, henc, hoid, hkey⟩ := encodeRow_of_wellTyped oid k nv
        (hwt (k, nv) (by simp))
      obtain ⟨ihk, iho⟩ := ih (fun q hq => hwt q (by simp [hq]))
      have hrows : rowsOf oid ((k, nv) :: rest) = row :: rowsOf oid rest := by
        simp [rowsOf, henc]
      constructor
      · rw [hrows]
        simp [hkey, ihk]
      · rw [hrows]
        intro r hr
        rw [List.mem_cons] at hr
        rcases hr with hr | hr
        · subst hr
          exact hoid
        · exact iho r hr

end AddLemmas

/-- C9: when the objectid already has a row, `MetadataStore.add`
returns `False` and the table is completely unchanged (no row
inserted, none modified); a call that returns normally returns `True`
exactly when the id was absent before the call. -/
theorem c9_add_duplicate_returns_false (db : Db) (objectid : String)
    (md : RawMetadata) (failAt : Option Nat) (nmd : NormMetadata)
    (hhash : (dictLookup md "hash").isSome = true)
    (hnorm : normalize_metadata md = .ok nmd) :
    (db.any (fun r => r.objectid == objectid) = true →
       MetadataStore.add db objectid md failAt = (.ok false, db)) ∧
    (∀ res db2, MetadataStore.add db objectid md failAt = (.ok res, db2) →
       (res = true ↔ db.any (fun r => r.objectid == objectid) = false)) := by
  have hne : (dictLookup md "hash").isNone = false := by
    cases h : dictLookup md "hash" with
    | none => rw [h] at hhash; simp at hhash
    | some v => rfl
  constructor
  · intro hdup
    simp [MetadataStore.add, hne, hnorm, hdup]
  · intro res db2 hres
    by_cases hdup : db.any (fun r => r.objectid == objectid) = true
    · simp [MetadataStore.add, hne, hnorm, hdup] at hres
      obtain ⟨h1, -⟩ := hres
      subst h1
      simp [hdup]
    · simp [MetadataStore.add, hne, hnorm, hdup] at hres
      cases hloop : insertLoop objectid nmd failAt with
      | error e =>
          rw [hloop] at hres
          simp at hres
      | ok rows =>
          rw [hloop] at hres
          simp at hres
          obtain ⟨h1, -⟩ := hres
          subst h1
          simp [hdup]

/-- C9 witness: a duplicate add is a no-op returning `False`, and an
add into an empty table returns `True`. -/
theorem c9_witness :
    ((([⟨"o1", "hash", some "h", none⟩] : Db).any
        (fun r => r.objectid == "o1") = true →
      MetadataStore.add [⟨"o1", "hash", some "h", none⟩] "o1"
          [("hash", PyValue.pstr "h")] none =
        (.ok false, [⟨"o1", "hash", some "h", none⟩])) ∧
     (∀ res db2,
        MetadataStore.add [⟨"o1", "hash", some "h", none⟩] "o1"
            [("hash", PyValue.pstr "h")] none = (.ok res, db2) →
        (res = true ↔ ([⟨"o1", "hash", some "h", none⟩] : Db).any
            (fun r => r.objectid == "o1") = false))) := by
  exact c9_add_duplicate_returns_false [⟨"o1", "hash", some "h", none⟩] "o1"
    [("hash", PyValue.pstr "h")] none
    [("hash", (PyScalar.pstr "str", PyScalar.pstr "h"))]
    (by decide) (by decide)

/-- C2 counterexample: inserting an objectid that already exists does
not fail with any exception: the call returns normally with `False`
(the claim says it fails with `DuplicateEntity`). -/
theorem c2_counterexample :
    MetadataStore.add [⟨"o1", "hash", some "h", none⟩] "o1"
        [("hash", PyValue.pstr "h2")] none =
      (.ok false, [⟨"o1", "hash", some "h", none⟩]) := by decide

/-- C2 (amended): for an id already present, `add` returns `False`
(without raising) and writes nothing; for an id not present, it writes
one row per attribute of the normalized record (including `hash`)
atomically: either the call returns `True` with all rows appended, or
it raises and the table is exactly as before. -/
theorem c2_add_all_or_nothing (db : Db) (objectid : String)
    (md : RawMetadata) (failAt : Option Nat) (nmd : NormMetadata)
    (hhash : (dictLookup md "hash").isSome = true)
    (hnorm : normalize_metadata md = .ok nmd)
    (hwt : ∀ p ∈ nmd, wellTypedVal p.2) :
    (db.any (fun r => r.objectid == objectid) = true →
       MetadataStore.add db objectid md failAt = (.ok false, db)) ∧
    (db.any (fun r => r.objectid == objectid) = false →
       (MetadataStore.add db objectid md failAt =
           (.ok true, db ++ rowsOf objectid nmd) ∧
        (rowsOf objectid nmd).map (fun r => r.mkey) = nmd.map Prod.fst ∧
        (∃ r ∈ rowsOf objectid nmd, r.mkey = "hash")) ∨
       MetadataStore.add db objectid md failAt =
         (.error AddErr.injectedErr, db)) := by
  have hne : (dictLookup md "hash").isNone = false := by
    cases h : dictLookup md "hash" with
    | none => rw [h] at hhash; simp at hhash
    | some v => rfl
  constructor
  · intro hdup
    simp [MetadataStore.add, hne, hnorm, hdup]
  · intro hdup
    rcases insertLoop_cases objectid nmd hwt failAt with hloop | hloop
    · right
      simp [MetadataStore.add, hne, hnorm, hdup, hloop]
    · left
      obtain ⟨hkeys, -⟩ := rowsOf_keys objectid nmd hwt
      refine ⟨by simp [MetadataStore.add, hne, hnorm, hdup, hloop], hkeys, ?_⟩
      have hmem : "hash" ∈ (rowsOf objectid nmd).map (fun r => r.mkey) := by
        rw [hkeys, normalize_keys md nmd hnorm]
        rw [dictLookup_isSome_iff] at hhash
        exact hhash
      obtain ⟨r, hr, hrk⟩ := List.mem_map.mp hmem
      exact ⟨r, hr, hrk⟩

/-- C2 witness: a fresh insert appends exactly the record's rows, and a
duplicate insert returns `False` unchanged. -/
theorem c2_witness :
    (([] : Db).any (fun r => r.objectid == "o1") = false) ∧
    ((MetadataStore.add [] "o1" [("hash", PyValue.pstr "h"),
        ("a", PyValue.pint 5)] none =
        (.ok true, [] ++ rowsOf "o1"
          [("hash", (PyScalar.pstr "str", PyScalar.pstr "h")),
           ("a", (PyScalar.pstr "int", PyScalar.pint 5))]) ∧
      (rowsOf "o1" [("hash", (PyScalar.pstr "str", PyScalar.pstr "h")),
           ("a", (PyScalar.pstr "int", PyScalar.pint 5))]).map
          (fun r => r.mkey) =
        [("hash", (PyScalar.pstr "str", PyScalar.pstr "h")),
         ("a", (PyScalar.pstr "int", PyScalar.pint 5))].map Prod.fst ∧
      (∃ r ∈ rowsOf "o1" [("hash", (PyScalar.pstr "str", PyScalar.pstr "h")),
           ("a", (PyScalar.pstr "int", PyScalar.pint 5))],
         r.mkey = "hash")) ∨
     MetadataStore.add [] "o1" [("hash", PyValue.pstr "h"),
        ("a", PyValue.pint 5)] none = (.error AddErr.injectedErr, [])) := by
  refine ⟨by decide, ?_⟩
  exact (c2_add_all_or_nothing [] "o1"
    [("hash", PyValue.pstr "h"), ("a", PyValue.pint 5)] none
    [("hash", (PyScalar.pstr "str", PyScalar.pstr "h")),
     ("a", (PyScalar.pstr "int", PyScalar.pint 5))]
    (by decide) (by decide)
    (by
      intro p hp
      simp only [List.mem_cons, List.not_mem_nil, or_false] at hp
      rcases hp with h | h <;> subst h
      · exact Or.inr ⟨rfl, "h", rfl⟩
      · exact Or.inl ⟨rfl, 5, rfl⟩)).2 (by decide)


/-- A store holding one blob (digest `file\nA`) referenced by one
metadata record: the state just before the failing call of C1. -/
def c1Store : Store :=
  (FileStore.add_file ⟨[], []⟩ "A" [("m", PyValue.pint 1)] none).2

/-- C1: code-bug evidence.  In `c1Store` the blob for digest `file\nA`
exists and is referenced by an existing record (`has_filehash` is
true, exactly the reference-count check `remove` uses for GC).  Adding
the same content under different metadata, with the metadata insertion
raising, leaves the store with the shared blob deleted (`objects = []`)
while the surviving record still references it: the rollback of
`add_file` removes the blob unconditionally instead of checking the
reference count, so the object store is not restored to its
pre-call state. -/
theorem c1_rollback_deletes_shared_blob :
    c1Store.objects = ["file\nA"] ∧
    MetadataStore.has_filehash c1Store.db "file\nA" = true ∧
    (FileStore.add_file c1Store "A" [("n", PyValue.pint 2)] (some 0)).1 =
      .error (AddFileErr.dbErr AddErr.injectedErr) ∧
    (FileStore.add_file c1Store "A" [("n", PyValue.pint 2)]
        (some 0)).2.objects = [] ∧
    (FileStore.add_file c1Store "A" [("n", PyValue.pint 2)] (some 0)).2.db =
      c1Store.db ∧
    MetadataStore.has_filehash
      (FileStore.add_file c1Store "A" [("n", PyValue.pint 2)]
        (some 0)).2.db "file\nA" = true := by
  decide


section RoundTrip

/-- A normalized scalar embedded back as the bare Python value that
`ResultBuilder` reconstructs from the typed column. -/
def stripScalar : PyScalar → PyValue
  | .pint n => .pint n
  | .pstr s => .pstr s
  | .pfloat => .pfloat

/-- The record `get` actually returns for a normalized record: each
tagged value collapsed to its bare scalar. -/
def stripTags (nmd : NormMetadata) : Record :=
  nmd.map (fun p => (p.1, stripScalar p.2.2))

theorem dictLookup_dictInsert {α : Type} (d : List (String × α))
    (k : String) (v : α) (k2 : String) :
    dictLookup (dictInsert d k v) k2 =
      if k2 = k then some v else dictLookup d k2 := by
  induction d with
  | nil =>
      by_cases h : k2 = k
      · subst h
        simp [dictInsert, dictLookup]
      · simp only [dictInsert, dictLookup]
        rw [if_neg (fun hc : k = k2 => h hc.symm), if_neg h]
  | cons p rest ih =>
      obtain ⟨k0, v0⟩ := p
      by_cases h0 : k0 = k
      · subst h0
        by_cases h2 : k2 = k0
        · subst h2
          simp [dictInsert, dictLookup]
        · have hn : ¬ k0 = k2 := fun hc => h2 hc.symm
          simp only [dictInsert, if_pos rfl, dictLookup, if_neg hn, if_neg h2]
      · by_cases h2 : k2 = k0
        · have hk2k : ¬ k2 = k := by
            rw [h2]
            exact h0
          simp only [dictInsert, if_neg h0, dictLookup,
            if_pos (h2.symm : k0 = k2), if_neg hk2k]
        · simp only [dictInsert, if_neg h0, dictLookup,
            if_neg (fun hc : k0 = k2 => h2 hc.symm)]
          rw [ih]

theorem dictLookup_dictInsert_self {α : Type} (d : List (String × α))
    (k : String) (v : α) : dictLookup (dictInsert d k v) k = some v := by
  induction d with
  | nil => simp [dictInsert, dictLookup]
  | cons p rest ih =>
      obtain ⟨k0, v0⟩ := p
      by_cases hk : k0 = k
      · subst hk
        simp [dictInsert, dictLookup]
      · simp [dictInsert, dictLookup, hk, ih]

theorem dictInsert_keys_of_mem {α : Type} (d : List (String × α))
    (k : String) (v : α) (h : k ∈ d.map Prod.fst) :
    (dictInsert d k v).map Prod.fst = d.map Prod.fst := by
  induction d with
  | nil => cases h
  | cons p rest ih =>
      obtain ⟨k0, v0⟩ := p
      by_cases hk : k0 = k
      · subst hk
        simp [dictInsert]
      · simp only [List.map_cons, List.mem_cons] at h
        rcases h with h | h
        · exact absurd h.symm hk
        · simp [dictInsert, hk, ih h]

theorem dictInsert_keys_of_not_mem {α : Type} (d : List (String × α))
    (k : String) (v : α) (h : k ∉ d.map Prod.fst) :
    dictInsert d k v = d ++ [(k, v)] := by
  induction d with
  | nil => rfl
  | cons p rest ih =>
      obtain ⟨k0, v0⟩ := p
      simp only [List.map_cons, List.mem_cons] at h
      push_neg at h
      obtain ⟨h1, h2⟩ := h
      have hk : ¬ k0 = k := fun hc => h1 hc.symm
      simp [dictInsert, hk, ih h2]

theorem getValue_encodeRow (oid k : String) (nv : NormValue) (row : DbRow)
    (hwt : wellTypedVal nv) (henc : encodeRow oid k nv = some row) :
    getValue row = some (stripScalar nv.2) ∧ row.mkey = k ∧
      row.objectid = oid := by
  obtain ⟨t, v⟩ := nv
  rcases hwt with ⟨ht, n, hv⟩ | ⟨ht, s, hv⟩ <;> subst ht <;> subst hv <;>
    simp only [encodeRow, Option.some.injEq] at henc <;> subst henc <;>
    exact ⟨rfl, rfl, rfl⟩

theorem stripTags_keys (nmd : NormMetadata) :
    (stripTags nmd).map Prod.fst = nmd.map Prod.fst := by
  simp [stripTags]

theorem resultBuilderGo_rowsOf (oid : String) (nmd : NormMetadata) :
    ∀ dct : Record,
    (∀ p ∈ nmd, wellTypedVal p.2) →
    (∀ k ∈ nmd.map Prod.fst, k ∉ dct.map Prod.fst) →
    (nmd.map Prod.fst).Nodup →
    resultBuilderGo (rowsOf oid nmd) oid dct =
      (if (dictLookup (dct ++ stripTags nmd) "hash").isSome then
        .ok [(oid, dct ++ stripTags nmd)]
      else .error RBErr.missingHash) := by
  induction nmd with
  | nil =>
      intro dct hwt hdisj hnd
      simp [rowsOf, resultBuilderGo, stripTags]
  | cons p rest ih =>
      intro dct hwt hdisj hnd
      obtain ⟨k, nv⟩ := p
      obtain ⟨row, henc, hrows⟩ := rowsOf_cons_of_wellTyped oid k nv rest
        (hwt (k, nv) (by simp))
      obtain ⟨hgv, hkey, hoid⟩ := getValue_encodeRow oid k nv row
        (hwt (k, nv) (by simp)) henc
      rw [hrows]
      simp only [resultBuilderGo, hoid, if_pos, rbInsert, hgv, hkey]
      have hkd : k ∉ dct.map Prod.fst := hdisj k (by simp)
      rw [dictInsert_keys_of_not_mem dct k (stripScalar nv.2) hkd]
      simp only [List.map_cons] at hnd
      have hnd' := hnd
      rw [List.nodup_cons] at hnd'
      obtain ⟨hknr, hndr⟩ := hnd'
      rw [ih (dct ++ [(k, stripScalar nv.2)])
        (fun q hq => hwt q (by simp [hq]))
        (by
          intro k2 hk2
          simp only [List.map_append, List.mem_append, List.map_cons,
            List.map_nil, List.mem_singleton]
          push_neg
          constructor
          · exact hdisj k2 (by simp [hk2])
          · intro hcon
            subst hcon
            exact hknr hk2)
        hndr]
      have hassoc : dct ++ [(k, stripScalar nv.2)] ++ stripTags rest =
          dct ++ stripTags ((k, nv) :: rest) := by
        simp [stripTags, List.append_assoc]
      rw [hassoc]

theorem resultBuilder_rowsOf (oid : String) (nmd : NormMetadata)
    (hwt : ∀ p ∈ nmd, wellTypedVal p.2)
    (hnd : (nmd.map Prod.fst).Nodup)
    (hne : ∀ k ∈ nmd.map Prod.fst, k ≠ "")
    (hhash : "hash" ∈ nmd.map Prod.fst) :
    resultBuilder (rowsOf oid nmd) = .ok [(oid, stripTags nmd)] := by
  cases nmd with
  | nil => simp at hhash
  | cons p rest =>
      obtain ⟨k, nv⟩ := p
      obtain ⟨row, henc, hrows⟩ := rowsOf_cons_of_wellTyped oid k nv rest
        (hwt (k, nv) (by simp))
      obtain ⟨hgv, hkey, hoid⟩ := getValue_encodeRow oid k nv row
        (hwt (k, nv) (by simp)) henc
      have hkne : k ≠ "" := hne k (by simp)
      have hstart : rbStart row = .ok [(k, stripScalar nv.2)] := by
        simp [rbStart, hkey, hkne, hgv]
      rw [hrows]
      simp only [resultBuilder, hstart]
      simp only [List.map_cons, List.nodup_cons] at hnd
      obtain ⟨hknr, hndr⟩ := hnd
      rw [hoid]
      rw [resultBuilderGo_rowsOf oid rest [(k, stripScalar nv.2)]
        (fun q hq => hwt q (by simp [hq]))
        (by
          intro k2 hk2
          simp only [List.map_cons, List.map_nil, List.mem_singleton]
          intro hcon
          subst hcon
          exact hknr hk2)
        hndr]
      have heq : ([(k, stripScalar nv.2)] : Record) ++ stripTags rest =
          stripTags ((k, nv) :: rest) := by
        simp [stripTags]
      rw [heq]
      have hlk : (dictLookup (stripTags ((k, nv) :: rest)) "hash").isSome =
          true := by
        rw [dictLookup_isSome_iff, stripTags_keys]
        simpa using hhash
      rw [hlk]
      simp

end RoundTrip

/-- C5 counterexample: for the file with content `A` added with
metadata `{a: 1}`, `get` returns the record with bare values
`{a: 1, hash: digest}`, which differs from
`normalize(original_metadata)` extended with `hash` (whose values are
the tagged dicts): the claimed round-trip equality is false. -/
theorem c5_counterexample :
    (FileStore.add_file ⟨[], []⟩ "A" [("a", PyValue.pint 1)] none).1 =
      .ok "1:ai1e4:hash6:file\nA" ∧
    MetadataStore.get
        (FileStore.add_file ⟨[], []⟩ "A" [("a", PyValue.pint 1)] none).2.db
        "1:ai1e4:hash6:file\nA" =
      .ok [("a", PyValue.pint 1), ("hash", PyValue.pstr "file\nA")] ∧
    MetadataStore.get
        (FileStore.add_file ⟨[], []⟩ "A" [("a", PyValue.pint 1)] none).2.db
        "1:ai1e4:hash6:file\nA" ≠
      .ok (dictInsert
        (normMetaToRaw [("a", (PyScalar.pstr "int", PyScalar.pint 1))])
        "hash" (PyValue.pstr "file\nA")) := by
  decide

/-- C5 (amended): looking the entity id of a fresh `add_file` up with
`get` returns `normalize(original_metadata)` extended with the `hash`
key bound to the content digest, with each tagged value collapsed to
its bare scalar (the reconstruction reads the typed columns back as
bare ints and strings, not as `{type, value}` dicts). -/
theorem c5_roundtrip_bare_values (s : Store) (content : String)
    (md : RawMetadata) (nmdh : NormMetadata) (oid : String)
    (hnorm : normalize_metadata
      (dictInsert md "hash" (.pstr (hash_file content))) = .ok nmdh)
    (hhm : hash_metadata
      (dictInsert md "hash" (.pstr (hash_file content))) = .ok oid)
    (hwt : ∀ p ∈ nmdh, wellTypedVal p.2)
    (hfresh : s.db.any (fun r => r.objectid == oid) = false)
    (hnd : (((dictInsert md "hash"
      (.pstr (hash_file content))) : RawMetadata).map Prod.fst).Nodup)
    (hne : ∀ k ∈ ((dictInsert md "hash"
      (.pstr (hash_file content))) : RawMetadata).map Prod.fst, k ≠ "") :
    (FileStore.add_file s content md none).1 = .ok oid ∧
    MetadataStore.get (FileStore.add_file s content md none).2.db oid =
      .ok (stripTags nmdh) := by
  have hkeq : nmdh.map Prod.fst =
      ((dictInsert md "hash" (.pstr (hash_file content))) :
        RawMetadata).map Prod.fst :=
    normalize_keys _ nmdh hnorm
  have hassert : (dictLookup
      ((dictInsert md "hash" (.pstr (hash_file content))) : RawMetadata)
      "hash").isNone = false := by
    rw [dictLookup_dictInsert_self]
    rfl
  have haddres : MetadataStore.add s.db oid
      (dictInsert md "hash" (.pstr (hash_file content))) none =
      (.ok true, s.db ++ rowsOf oid nmdh) := by
    unfold MetadataStore.add
    rw [hnorm]
    simp [hassert, hfresh, insertLoop_none oid nmdh hwt]
  have haf : FileStore.add_file s content md none =
      (.ok oid,
       ⟨if s.objects.contains (hash_file content) then s.objects
        else s.objects ++ [hash_file content],
        s.db ++ rowsOf oid nmdh⟩) := by
    unfold FileStore.add_file
    dsimp only
    rw [hhm]
    dsimp only
    rw [haddres]
  refine ⟨by rw [haf], ?_⟩
  rw [haf]
  have hfresh2 : ∀ r ∈ s.db, ¬ (r.objectid == oid) = true := by
    intro r hr hcon
    have : s.db.any (fun r => r.objectid == oid) = true :=
      List.any_eq_true.mpr ⟨r, hr, hcon⟩
    rw [this] at hfresh
    cases hfresh
  have hfilter : (s.db ++ rowsOf oid nmdh).filter
      (fun r => r.objectid == oid) = rowsOf oid nmdh := by
    rw [List.filter_append]
    have h1 : s.db.filter (fun r => r.objectid == oid) = [] := by
      rw [List.filter_eq_nil_iff]
      exact hfresh2
    have h2 : (rowsOf oid nmdh).filter (fun r => r.objectid == oid) =
        rowsOf oid nmdh := by
      rw [List.filter_eq_self]
      intro r hr
      rw [(rowsOf_keys oid nmdh hwt).2 r hr]
      simp
    rw [h1, h2]
    rfl
  unfold MetadataStore.get
  rw [hfilter, resultBuilder_rowsOf oid nmdh hwt
    (by rw [hkeq]; exact hnd)
    (by rw [hkeq]; exact hne)
    (by
      rw [hkeq]
      have := dictLookup_dictInsert_self md "hash"
        (PyValue.pstr (hash_file content))
      rw [← dictLookup_isSome_iff]
      rw [this]
      rfl)]

/-- C5 witness: the amended round-trip at a concrete store. -/
theorem c5_witness :
    (FileStore.add_file ⟨[], []⟩ "A" [("a", PyValue.pint 1)] none).1 =
      .ok "1:ai1e4:hash6:file\nA" ∧
    MetadataStore.get
        (FileStore.add_file ⟨[], []⟩ "A" [("a", PyValue.pint 1)] none).2.db
        "1:ai1e4:hash6:file\nA" =
      .ok (stripTags [("a", (PyScalar.pstr "int", PyScalar.pint 1)),
        ("hash", (PyScalar.pstr "str", PyScalar.pstr "file\nA"))]) := by
  exact c5_roundtrip_bare_values ⟨[], []⟩ "A" [("a", PyValue.pint 1)]
    [("a", (PyScalar.pstr "int", PyScalar.pint 1)),
     ("hash", (PyScalar.pstr "str", PyScalar.pstr "file\nA"))]
    "1:ai1e4:hash6:file\nA"
    (by decide) (by decide)
    (by
      intro p hp
      simp only [List.mem_cons, List.not_mem_nil, or_false] at hp
      rcases hp with h | h <;> subst h
      · exact Or.inl ⟨rfl, 1, rfl⟩
      · exact Or.inr ⟨rfl, "file\nA", rfl⟩)
    (by decide) (by decide) (by decide)


section DedupGC

theorem contains_iff (l : List String) (x : String) :
    l.contains x = true ↔ x ∈ l := by
  simp [List.contains_iff_exists_mem_beq]

theorem encodeRow_inv (oid k : String) (nv : NormValue) (row : DbRow)
    (h : encodeRow oid k nv = some row) :
    row.objectid = oid ∧ row.mkey = k ∧
      getValue row = some (stripScalar nv.2) := by
  unfold encodeRow at h
  split at h
  · simp only [Option.some.injEq] at h
    subst h
    exact ⟨rfl, rfl, rfl⟩
  · simp only [Option.some.injEq] at h
    subst h
    exact ⟨rfl, rfl, rfl⟩
  · cases h

theorem insertLoop_ok_inv (oid : String) (nmd : NormMetadata)
    (failAt : Option Nat) (rows : List DbRow)
    (h : insertLoop oid nmd failAt = .ok rows) :
    rows.map (fun r => r.mkey) = nmd.map Prod.fst ∧
      ∀ r ∈ rows, r.objectid = oid := by
  induction nmd generalizing failAt rows with
  | nil =>
      simp only [insertLoop, Except.ok.injEq] at h
      subst h
      exact ⟨rfl, by intro r hr; cases hr⟩
  | cons p rest ih =>
      obtain ⟨k, nv⟩ := p
      simp only [insertLoop] at h
      split at h
      · cases h
      · split at h
        · cases h
        · rename_i row henc
          split at h
          · cases h
          · rename_i tail htail
            simp only [Except.ok.injEq] at h
            subst h
            obtain ⟨hko, hro, -⟩ :=
              encodeRow_inv oid k nv row henc
            obtain ⟨ihk, iho⟩ := ih (failAt.map Nat.pred) tail htail
            refine ⟨by simp [hro, ihk], ?_⟩
            intro r hr
            rw [List.mem_cons] at hr
            rcases hr with hr | hr
            · subst hr; exact hko
            · exact iho r hr

theorem metadataAdd_ok_inv (db : Db) (oid : String) (md : RawMetadata)
    (failAt : Option Nat) (b : Bool) (db2 : Db)
    (h : MetadataStore.add db oid md failAt = (.ok b, db2)) :
    (dictLookup md "hash").isSome = true ∧
    ((b = false ∧ db2 = db ∧
        db.any (fun r => r.objectid == oid) = true) ∨
     (b = true ∧ db.any (fun r => r.objectid == oid) = false ∧
      ∃ nmd rows, normalize_metadata md = .ok nmd ∧
        insertLoop oid nmd failAt = .ok rows ∧ db2 = db ++ rows ∧
        rows.map (fun r => r.mkey) = nmd.map Prod.fst ∧
        ∀ r ∈ rows, r.objectid = oid)) := by
  unfold MetadataStore.add at h
  split at h
  · cases h
  · rename_i hassert
    constructor
    · cases hlk : dictLookup md "hash" with
      | none => rw [hlk] at hassert; simp at hassert
      | some v => rfl
    · split at h
      · cases h
      · rename_i nmd hnorm
        split at h
        · rename_i hdup
          simp only [Prod.mk.injEq, Except.ok.injEq] at h
          obtain ⟨hb, hdb⟩ := h
          exact Or.inl ⟨hb.symm, hdb.symm, hdup⟩
        · rename_i hdup
          split at h
          · cases h
          · rename_i rows hloop
            simp only [Prod.mk.injEq, Except.ok.injEq] at h
            obtain ⟨hb, hdb⟩ := h
            obtain ⟨hk, ho⟩ := insertLoop_ok_inv oid nmd failAt rows hloop
            exact Or.inr ⟨hb.symm, by simpa using hdup,
              nmd, rows, hnorm, hloop, hdb.symm, hk, ho⟩

theorem addFile_ok_inv (s : Store) (content : String) (md : RawMetadata)
    (failAt : Option Nat) (oid : String) (s1 : Store)
    (h : FileStore.add_file s content md failAt = (.ok oid, s1)) :
    hash_metadata (dictInsert md "hash" (.pstr (hash_file content))) =
      .ok oid ∧
    ∃ b db2,
      MetadataStore.add s.db oid
        (dictInsert md "hash" (.pstr (hash_file content))) failAt =
        (.ok b, db2) ∧
      s1 = ⟨if s.objects.contains (hash_file content) then s.objects
            else s.objects ++ [hash_file content], db2⟩ := by
  unfold FileStore.add_file at h
  dsimp only at h
  split at h
  · cases h
  · rename_i objectid hhm
    split at h
    · rename_i b db2 hadd
      simp only [Prod.mk.injEq, Except.ok.injEq] at h
      obtain ⟨ho, hs⟩ := h
      subst ho
      exact ⟨hhm, b, db2, hadd, hs.symm⟩
    · cases h

theorem addFile_ok_blob (s : Store) (content : String) (md : RawMetadata)
    (failAt : Option Nat) (oid : String) (s1 : Store)
    (h : FileStore.add_file s content md failAt = (.ok oid, s1)) :
    s1.objects.contains (hash_file content) = true := by
  obtain ⟨-, b, db2, -, hs⟩ := addFile_ok_inv s content md failAt oid s1 h
  subst hs
  by_cases hc : s.objects.contains (hash_file content) = true
  · rw [if_pos hc]
    exact hc
  · rw [if_neg hc]
    rw [contains_iff]
    simp

theorem addFile_ok_mem (s : Store) (content : String) (md : RawMetadata)
    (failAt : Option Nat) (oid : String) (s1 : Store)
    (h : FileStore.add_file s content md failAt = (.ok oid, s1)) :
    ∃ r ∈ s1.db, r.objectid = oid := by
  obtain ⟨hhm, b, db2, hadd, hs⟩ := addFile_ok_inv s content md failAt oid s1 h
  obtain ⟨hsome, hcases⟩ := metadataAdd_ok_inv s.db oid _ failAt b db2 hadd
  subst hs
  rcases hcases with ⟨-, hdb, hdup⟩ | ⟨-, -, nmd, rows, hnorm, -, hdb, hkeys, ho⟩
  · subst hdb
    obtain ⟨r, hr, hp⟩ := List.any_eq_true.mp hdup
    exact ⟨r, hr, by simpa using hp⟩
  · subst hdb
    have hhash : "hash" ∈ rows.map (fun r => r.mkey) := by
      rw [hkeys, normalize_keys _ nmd hnorm]
      rw [dictLookup_isSome_iff] at hsome
      exact hsome
    obtain ⟨r, hr, -⟩ := List.mem_map.mp hhash
    exact ⟨r, by simp [hr], ho r hr⟩

theorem metadataGet_ok_any (db : Db) (oid : String) (rec : Record)
    (h : MetadataStore.get db oid = .ok rec) :
    db.any (fun r => r.objectid == oid) = true := by
  cases hfil : db.filter (fun r => r.objectid == oid) with
  | nil =>
      exfalso
      unfold MetadataStore.get at h
      rw [hfil] at h
      simp [resultBuilder] at h
  | cons a l =>
      have ha : a ∈ db.filter (fun r => r.objectid == oid) := by
        rw [hfil]; simp
      rw [List.mem_filter] at ha
      exact List.any_eq_true.mpr ⟨a, ha.1, ha.2⟩

/-- C3: reference-counted deduplication and garbage collection.
(1) Adding the same content with the same metadata twice returns the
same EntityId and leaves the store (blobs and rows) exactly as after
the first add.  (2) Adding the same content with different metadata
adds no blob: both records exist and share the single blob.
(3) `remove` deletes the stored digest from the object store exactly
when the removed record was the last one whose `hash` attribute equals
that digest. -/
theorem c3_dedup_and_gc :
    (∀ (s : Store) (content : String) (md : RawMetadata) (oid : String)
       (s1 : Store),
       FileStore.add_file s content md none = (.ok oid, s1) →
       FileStore.add_file s1 content md none = (.ok oid, s1)) ∧
    (∀ (s : Store) (content : String) (md md' : RawMetadata)
       (oid oid' : String) (s1 s2 : Store),
       FileStore.add_file s content md none = (.ok oid, s1) →
       FileStore.add_file s1 content md' none = (.ok oid', s2) →
       s2.objects = s1.objects ∧
       (∃ r ∈ s2.db, r.objectid = oid) ∧ (∃ r ∈ s2.db, r.objectid = oid')) ∧
    (∀ (s : Store) (oid : String) (rec : Record) (h : String),
       MetadataStore.get s.db oid = .ok rec →
       dictLookup rec "hash" = some (.pstr h) →
       h ∈ s.objects →
       (FileStore.remove s oid).1 = .ok () ∧
       (FileStore.remove s oid).2.db =
         s.db.filter (fun r => !(r.objectid == oid)) ∧
       (h ∈ (FileStore.remove s oid).2.objects ↔
         ∃ r ∈ s.db, r.objectid ≠ oid ∧ r.mkey = "hash" ∧
           r.mvalue_str = some h)) := by
  refine ⟨?_, ?_, ?_⟩
  · intro s content md oid s1 h1
    obtain ⟨hhm, b, db2, hadd, hs1⟩ := addFile_ok_inv s content md none oid s1 h1
    obtain ⟨hsome, -⟩ := metadataAdd_ok_inv s.db oid _ none b db2 hadd
    have hblob := addFile_ok_blob s content md none oid s1 h1
    obtain ⟨r0, hr0, hr0oid⟩ := addFile_ok_mem s content md none oid s1 h1
    have hdup2 : s1.db.any (fun r => r.objectid == oid) = true :=
      List.any_eq_true.mpr ⟨r0, hr0, by simp [hr0oid]⟩
    have hassert : (dictLookup
        ((dictInsert md "hash" (.pstr (hash_file content))) : RawMetadata)
        "hash").isNone = false := by
      rw [dictLookup_dictInsert_self]
      rfl
    have hnormok : ∃ nmd, normalize_metadata
        (dictInsert md "hash" (.pstr (hash_file content))) = .ok nmd := by
      cases hn : normalize_metadata
          (dictInsert md "hash" (.pstr (hash_file content))) with
      | error e =>
          exfalso
          unfold hash_metadata at hhm
          rw [hn] at hhm
          split at hhm
          · cases hhm
          · cases hhm
      | ok nmd => exact ⟨nmd, rfl⟩
    obtain ⟨nmd, hnorm⟩ := hnormok
    have hadd2 : MetadataStore.add s1.db oid
        (dictInsert md "hash" (.pstr (hash_file content))) none =
        (.ok false, s1.db) := by
      unfold MetadataStore.add
      rw [hnorm]
      simp [hassert, hdup2]
    unfold FileStore.add_file
    dsimp only
    rw [hhm]
    dsimp only
    rw [hadd2, hblob]
    rfl
  · intro s content md md' oid oid' s1 s2 h1 h2
    have hblob1 := addFile_ok_blob s content md none oid s1 h1
    obtain ⟨-, b2, db2, hadd2, hs2⟩ :=
      addFile_ok_inv s1 content md' none oid' s2 h2
    have hobj : s2.objects = s1.objects := by
      rw [hs2]
      rw [if_pos hblob1]
    refine ⟨hobj, ?_, addFile_ok_mem s1 content md' none oid' s2 h2⟩
    obtain ⟨r0, hr0, hr0oid⟩ := addFile_ok_mem s content md none oid s1 h1
    obtain ⟨-, hcases⟩ := metadataAdd_ok_inv s1.db oid' _ none b2 db2 hadd2
    rcases hcases with ⟨-, hdb, -⟩ | ⟨-, -, nmd, rows, -, -, hdb, -, -⟩
    · exact ⟨r0, by rw [hs2]; simpa [hdb] using hr0, hr0oid⟩
    · exact ⟨r0, by rw [hs2]; simp [hdb]; exact Or.inl hr0, hr0oid⟩
  · intro s oid rec h hget hlk hmem
    have hany := metadataGet_ok_any s.db oid rec hget
    have hrem : MetadataStore.remove s.db oid =
        (.ok (), s.db.filter (fun r => !(r.objectid == oid))) := by
      unfold MetadataStore.remove
      rw [hany]
      rfl
    have hhf : MetadataStore.has_filehash
        (s.db.filter (fun r => !(r.objectid == oid))) h = true ↔
        ∃ r ∈ s.db, r.objectid ≠ oid ∧ r.mkey = "hash" ∧
          r.mvalue_str = some h := by
      unfold MetadataStore.has_filehash
      rw [List.any_eq_true]
      constructor
      · rintro ⟨r, hr, hp⟩
        rw [List.mem_filter] at hr
        simp only [Bool.and_eq_true, beq_iff_eq] at hp
        refine ⟨r, hr.1, by simpa using hr.2, hp.1, hp.2⟩
      · rintro ⟨r, hr, hno, hk, hv⟩
        refine ⟨r, ?_, ?_⟩
        · rw [List.mem_filter]
          exact ⟨hr, by simpa using hno⟩
        · simp [hk, hv]
    by_cases hgc : MetadataStore.has_filehash
        (s.db.filter (fun r => !(r.objectid == oid))) h = true
    · have hrm : FileStore.remove s oid =
          (.ok (), ⟨s.objects,
            s.db.filter (fun r => !(r.objectid == oid))⟩) := by
        unfold FileStore.remove
        rw [hget]
        dsimp only
        rw [hlk]
        dsimp only
        rw [hrem]
        dsimp only
        rw [if_pos hgc]
      rw [hrm]
      exact ⟨rfl, rfl, by simp only [hhf.mp hgc, iff_true]; exact hmem⟩
    · have hc : s.objects.contains h = true := (contains_iff _ _).mpr hmem
      have hrm : FileStore.remove s oid =
          (.ok (), ⟨s.objects.filter (fun x => !(x == h)),
            s.db.filter (fun r => !(r.objectid == oid))⟩) := by
        unfold FileStore.remove
        rw [hget]
        dsimp only
        rw [hlk]
        dsimp only
        rw [hrem]
        dsimp only
        rw [if_neg hgc, if_pos hc]
      rw [hrm]
      refine ⟨rfl, rfl, ?_⟩
      constructor
      · intro hcon
        rw [List.mem_filter] at hcon
        simp at hcon
      · intro hcon
        rw [← hhf] at hcon
        exact absurd hcon hgc

end DedupGC

/-- The store after adding content `A` with metadata `{c: 41}`. -/
def c3S1 : Store :=
  ⟨["file\nA"],
   [⟨"1:ci41e4:hash6:file\nA", "c", none, some 41⟩,
    ⟨"1:ci41e4:hash6:file\nA", "hash", some "file\nA", none⟩]⟩

/-- `c3S1` extended by the record `{d: 5}` for the same content. -/
def c3S2 : Store :=
  ⟨["file\nA"],
   [⟨"1:ci41e4:hash6:file\nA", "c", none, some 41⟩,
    ⟨"1:ci41e4:hash6:file\nA", "hash", some "file\nA", none⟩,
    ⟨"1:di5e4:hash6:file\nA", "d", none, some 5⟩,
    ⟨"1:di5e4:hash6:file\nA", "hash", some "file\nA", none⟩]⟩

/-- C3 witness: the three parts of `c3_dedup_and_gc` at concrete
stores: idempotent re-add, shared blob across two records, and GC of a
non-last then last reference. -/
theorem c3_witness :
    (FileStore.add_file c3S1 "A" [("c", PyValue.pint 41)] none =
      (.ok "1:ci41e4:hash6:file\nA", c3S1)) ∧
    (c3S2.objects = c3S1.objects ∧
     (∃ r ∈ c3S2.db, r.objectid = "1:ci41e4:hash6:file\nA") ∧
     (∃ r ∈ c3S2.db, r.objectid = "1:di5e4:hash6:file\nA")) ∧
    ((FileStore.remove c3S2 "1:ci41e4:hash6:file\nA").1 = .ok () ∧
     (FileStore.remove c3S2 "1:ci41e4:hash6:file\nA").2.db =
       c3S2.db.filter
         (fun r => !(r.objectid == "1:ci41e4:hash6:file\nA")) ∧
     ("file\nA" ∈ (FileStore.remove c3S2 "1:ci41e4:hash6:file\nA").2.objects
       ↔ ∃ r ∈ c3S2.db, r.objectid ≠ "1:ci41e4:hash6:file\nA" ∧
           r.mkey = "hash" ∧ r.mvalue_str = some "file\nA")) := by
  refine ⟨?_, ?_, ?_⟩
  · exact c3_dedup_and_gc.1 ⟨[], []⟩ "A" [("c", PyValue.pint 41)]
      "1:ci41e4:hash6:file\nA" c3S1 (by decide)
  · exact c3_dedup_and_gc.2.1 ⟨[], []⟩ "A" [("c", PyValue.pint 41)]
      [("d", PyValue.pint 5)] "1:ci41e4:hash6:file\nA"
      "1:di5e4:hash6:file\nA" c3S1 c3S2 (by decide) (by decide)
  · exact c3_dedup_and_gc.2.2 c3S2 "1:ci41e4:hash6:file\nA"
      [("c", PyValue.pint 41), ("hash", PyValue.pstr "file\nA")] "file\nA"
      (by decide) (by decide) (by decide)


section FailFast

/-- The comparison operators the condition language supports for a
type tag, per the spec: `equal` for both kinds, `gt`/`lt` only for
`int`. -/
def specOpAllowed (t : PyScalar) (op : String) : Bool :=
  op == "equal" || (t == PyScalar.pstr "int" && (op == "lt" || op == "gt"))

theorem compileOps_bad_op (t : Ty) (tag : PyScalar)
    (htag : (t = Ty.tstr ∧ tag = PyScalar.pstr "str") ∨
            (t = Ty.tint ∧ tag = PyScalar.pstr "int")) :
    ∀ req : List (String × PyScalar),
    (∃ p ∈ req, specOpAllowed tag p.1 = false) →
    compileOps t req = .error QueryErr.unsupportedOperation := by
  intro req
  induction req with
  | nil => intro h; simp at h
  | cons p rest ih =>
      intro hbad
      obtain ⟨q, hq, hqbad⟩ := hbad
      obtain ⟨k, v⟩ := p
      rw [List.mem_cons] at hq
      by_cases hk1 : k = "equal"
      · have hbad2 : ∃ p ∈ rest, specOpAllowed tag p.1 = false := by
          rcases hq with hq | hq
          · exfalso
            subst hq
            subst hk1
            simp [specOpAllowed] at hqbad
          · exact ⟨q, hq, hqbad⟩
        simp [compileOps, hk1, ih hbad2]
      · by_cases hk2 : t = Ty.tint ∧ k = "lt"
        · have hbad2 : ∃ p ∈ rest, specOpAllowed tag p.1 = false := by
            rcases hq with hq | hq
            · exfalso
              subst hq
              rcases htag with ⟨ht, -⟩ | ⟨-, htg⟩
              · rw [ht] at hk2
                cases hk2.1
              · rw [htg, hk2.2] at hqbad
                simp [specOpAllowed] at hqbad
            · exact ⟨q, hq, hqbad⟩
          obtain ⟨ht, hkl⟩ := hk2
          subst ht
          subst hkl
          simp [compileOps, hk1, ih hbad2]
        · by_cases hk3 : t = Ty.tint ∧ k = "gt"
          · have hbad2 : ∃ p ∈ rest, specOpAllowed tag p.1 = false := by
              rcases hq with hq | hq
              · exfalso
                subst hq
                rcases htag with ⟨ht, -⟩ | ⟨-, htg⟩
                · rw [ht] at hk3
                  cases hk3.1
                · rw [htg, hk3.2] at hqbad
                  simp [specOpAllowed] at hqbad
              · exact ⟨q, hq, hqbad⟩
            obtain ⟨ht, hkg⟩ := hk3
            subst ht
            subst hkg
            simp [compileOps, hk1, hk2, ih hbad2]
          · simp [compileOps, hk1, hk2, hk3]

theorem compileCond_missing_type (k : String)
    (ps : List (String × PyScalar)) (hne : ps ≠ [])
    (hmt : "type" ∉ ps.map Prod.fst) :
    compileCond (k, .pdict ps) = .error QueryErr.missingTypeTag := by
  have hpop : dictPop ps "type" = none := (dictPop_none_iff ps "type").mpr hmt
  cases ps with
  | nil => exact absurd rfl hne
  | cons p ps2 => simp [compileCond, hpop]

theorem compileCond_bad_op (k : String) (ps : List (String × PyScalar))
    (t : PyScalar) (req : List (String × PyScalar))
    (hpop : dictPop ps "type" = some (t, req))
    (htag : t = PyScalar.pstr "str" ∨ t = PyScalar.pstr "int")
    (hbad : ∃ p ∈ req, specOpAllowed t p.1 = false) :
    compileCond (k, .pdict ps) = .error QueryErr.unsupportedOperation := by
  cases ps with
  | nil => simp [dictPop] at hpop
  | cons p ps2 =>
      rcases htag with ht | ht <;> subst ht
      · simp [compileCond, hpop,
          compileOps_bad_op Ty.tstr (PyScalar.pstr "str") (Or.inl ⟨rfl, rfl⟩)
            req hbad]
      · simp [compileCond, hpop,
          compileOps_bad_op Ty.tint (PyScalar.pstr "int") (Or.inr ⟨rfl, rfl⟩)
            req hbad]

theorem compileAll_error (c : String × PyValue) (e : QueryErr)
    (post : List (String × PyValue)) (hc : compileCond c = .error e) :
    ∀ pre : List (String × PyValue),
    (∀ x ∈ pre, (compileCond x).isOk = true) →
    compileAll (pre ++ c :: post) = .error e := by
  intro pre
  induction pre with
  | nil =>
      intro _
      simp [compileAll, hc]
  | cons x xs ih =>
      intro hpre
      have hx := hpre x (by simp)
      obtain ⟨cc, hcc⟩ : ∃ cc, compileCond x = .ok cc := by
        cases hx2 : compileCond x with
        | error e2 =>
            rw [hx2] at hx
            simp [Except.isOk, Except.toBool] at hx
        | ok cc => exact ⟨cc, rfl⟩
      have hrest := ih (fun y hy => hpre y (by simp [hy]))
      simp only [List.cons_append, compileAll, hcc]
      rw [show xs.append (c :: post) = xs ++ (c :: post) from rfl, hrest]

theorem query_all_compile_error (db : Db) (limit : Option Nat)
    (e : QueryErr) (c0 : String × PyValue) (cs : List (String × PyValue))
    (h : compileAll (c0 :: cs) = .error e) :
    MetadataStore.query_all db (c0 :: cs) limit = .error e := by
  unfold MetadataStore.query_all
  dsimp only
  rw [h]

end FailFast

/-- C7: a condition mapping containing a malformed condition (a
non-empty condition dict lacking the `type` discriminator, or a
comparison operator unsupported for the condition's declared type,
such as `gt`/`lt` with type `str` or an unknown operator name) makes
`query_all` raise the corresponding validation error
(`missingTypeTag` resp. `unsupportedOperation`) during query
compilation, before any query runs against the index: the call returns
the error and, the model being a pure function of the table, the store
is untouched. -/
theorem c7_malformed_condition_fails_fast (db : Db) (limit : Option Nat)
    (pre post : List (String × PyValue)) (k : String) (bad : PyValue)
    (hpre : ∀ c ∈ pre, (compileCond c).isOk = true) :
    ((∃ ps, bad = .pdict ps ∧ ps ≠ [] ∧ "type" ∉ ps.map Prod.fst) →
      MetadataStore.query_all db (pre ++ (k, bad) :: post) limit =
        .error QueryErr.missingTypeTag) ∧
    ((∃ ps t req, bad = .pdict ps ∧ dictPop ps "type" = some (t, req) ∧
        (t = PyScalar.pstr "str" ∨ t = PyScalar.pstr "int") ∧
        ∃ p ∈ req, specOpAllowed t p.1 = false) →
      MetadataStore.query_all db (pre ++ (k, bad) :: post) limit =
        .error QueryErr.unsupportedOperation) := by
  have hshape : ∀ e : QueryErr, compileCond (k, bad) = .error e →
      MetadataStore.query_all db (pre ++ (k, bad) :: post) limit =
        .error e := by
    intro e hc
    have hmap := compileAll_error (k, bad) e post hc pre hpre
    cases hl : pre ++ (k, bad) :: post with
    | nil =>
        exfalso
        cases pre <;> simp at hl
    | cons c0 cs =>
        rw [hl] at hmap
        exact query_all_compile_error db limit e c0 cs hmap
  constructor
  · rintro ⟨ps, hb, hne, hmt⟩
    subst hb
    exact hshape QueryErr.missingTypeTag (compileCond_missing_type k ps hne hmt)
  · rintro ⟨ps, t, req, hb, hpop, htag, hbad⟩
    subst hb
    exact hshape QueryErr.unsupportedOperation
      (compileCond_bad_op k ps t req hpop htag hbad)

/-- C7 witness: a condition dict without `type` raises
`missingTypeTag`; `gt` on a `str`-typed condition raises
`unsupportedOperation`. -/
theorem c7_witness :
    MetadataStore.query_all []
        [("a", PyValue.pstr "v"),
         ("c", PyValue.pdict [("gt", PyScalar.pint 5)])]
        none = .error QueryErr.missingTypeTag ∧
    MetadataStore.query_all []
        [("c", PyValue.pdict [("type", PyScalar.pstr "str"),
                              ("gt", PyScalar.pstr "a")])]
        (some 3) = .error QueryErr.unsupportedOperation := by
  constructor
  · exact (c7_malformed_condition_fails_fast [] none
      [("a", PyValue.pstr "v")] [] "c"
      (PyValue.pdict [("gt", PyScalar.pint 5)])
      (by decide)).1
      ⟨[("gt", PyScalar.pint 5)], rfl, by decide, by decide⟩
  · exact (c7_malformed_condition_fails_fast [] (some 3) [] [] "c"
      (PyValue.pdict [("type", PyScalar.pstr "str"),
                      ("gt", PyScalar.pstr "a")])
      (by intro c hc; cases hc)).2
      ⟨[("type", PyScalar.pstr "str"), ("gt", PyScalar.pstr "a")],
       PyScalar.pstr "str", [("gt", PyScalar.pstr "a")], rfl, by decide,
       Or.inl rfl, ("gt", PyScalar.pstr "a"), by decide, by decide⟩

section StrOrder

theorem lexLt_irrefl : ∀ l : List Char, lexLt l l = false := by
  intro l
  induction l with
  | nil => rfl
  | cons a as ih => simp [lexLt, ih]

theorem lexLt_trans : ∀ a b c : List Char,
    lexLt a b = true → lexLt b c = true → lexLt a c = true := by
  intro a
  induction a with
  | nil =>
      intro b c hab hbc
      cases b with
      | nil => cases hab
      | cons y ys =>
          cases c with
          | nil => cases hbc
          | cons z zs => rfl
  | cons x xs ih =>
      intro b c hab hbc
      cases b with
      | nil => cases hab
      | cons y ys =>
          cases c with
          | nil => cases hbc
          | cons z zs =>
              simp only [lexLt] at hab hbc ⊢
              have hab2 : x.toNat < y.toNat ∨
                  (x.toNat = y.toNat ∧ lexLt xs ys = true) := by
                by_cases h1 : x.toNat < y.toNat
                · exact Or.inl h1
                · by_cases h4 : x.toNat = y.toNat
                  · exact Or.inr ⟨h4, by simpa [h1, h4] using hab⟩
                  · simp [h1, h4] at hab
              have hbc2 : y.toNat < z.toNat ∨
                  (y.toNat = z.toNat ∧ lexLt ys zs = true) := by
                by_cases h1 : y.toNat < z.toNat
                · exact Or.inl h1
                · by_cases h4 : y.toNat = z.toNat
                  · exact Or.inr ⟨h4, by simpa [h1, h4] using hbc⟩
                  · simp [h1, h4] at hbc
              rcases hab2 with h1 | ⟨h1, hr1⟩
              · rcases hbc2 with h2 | ⟨h2, -⟩
                · simp [Nat.lt_trans h1 h2]
                · have hx : x.toNat < z.toNat := by
                    rw [← h2]
                    exact h1
                  simp [hx]
              · rcases hbc2 with h2 | ⟨h2, hr2⟩
                · have hx : x.toNat < z.toNat := by
                    rw [h1]
                    exact h2
                  simp [hx]
                · have hxz : x.toNat = z.toNat := h1.trans h2
                  simp [hxz, Nat.lt_irrefl, ih ys zs hr1 hr2]

theorem lexLt_total : ∀ a b : List Char,
    lexLt a b = true ∨ a = b ∨ lexLt b a = true := by
  intro a
  induction a with
  | nil =>
      intro b
      cases b with
      | nil => exact Or.inr (Or.inl rfl)
      | cons y ys => exact Or.inl rfl
  | cons x xs ih =>
      intro b
      cases b with
      | nil => exact Or.inr (Or.inr rfl)
      | cons y ys =>
          rcases Nat.lt_trichotomy x.toNat y.toNat with h | h | h
          · left
            simp [lexLt, h]
          · have hxy : x = y := Char.eq_of_val_eq (UInt32.ext h)
            subst hxy
            rcases ih ys with h2 | h2 | h2
            · left
              simp [lexLt, h2]
            · subst h2
              exact Or.inr (Or.inl rfl)
            · right; right
              simp [lexLt, h2]
          · right; right
            simp [lexLt, h]

theorem strLt_irrefl (a : String) : strLt a a = false := by
  simp [strLt, lexLt_irrefl]

theorem strLt_trans (a b c : String) (h1 : strLt a b = true)
    (h2 : strLt b c = true) : strLt a c = true :=
  lexLt_trans a.data b.data c.data h1 h2

theorem strLt_total (a b : String) :
    strLt a b = true ∨ a = b ∨ strLt b a = true := by
  rcases lexLt_total a.data b.data with h | h | h
  · exact Or.inl h
  · right; left
    cases a; cases b; simp_all
  · exact Or.inr (Or.inr h)

theorem strLe_refl (a : String) : strLe a a = true := by
  simp [strLe]

theorem strLe_total (a b : String) : strLe a b = true ∨ strLe b a = true := by
  rcases strLt_total a b with h | h | h
  · exact Or.inl (by simp [strLe, h])
  · subst h
    exact Or.inl (strLe_refl a)
  · exact Or.inr (by simp [strLe, h])

theorem strLe_trans (a b c : String) (h1 : strLe a b = true)
    (h2 : strLe b c = true) : strLe a c = true := by
  simp only [strLe, Bool.or_eq_true, beq_iff_eq] at h1 h2 ⊢
  rcases h1 with h1 | h1
  · rcases h2 with h2 | h2
    · exact Or.inl (strLt_trans a b c h1 h2)
    · subst h2
      exact Or.inl h1
  · subst h1
    exact h2

theorem strLt_of_le_ne (a b : String) (h1 : strLe a b = true) (h2 : a ≠ b) :
    strLt a b = true := by
  simp only [strLe, Bool.or_eq_true, beq_iff_eq] at h1
  rcases h1 with h1 | h1
  · exact h1
  · exact absurd h1 h2

theorem strLe_antisymm (a b : String) (h1 : strLe a b = true)
    (h2 : strLe b a = true) : a = b := by
  by_contra hne
  have ha := strLt_of_le_ne a b h1 hne
  have hb := strLt_of_le_ne b a h2 (Ne.symm hne)
  have := strLt_trans a b a ha hb
  rw [strLt_irrefl] at this
  cases this

theorem strLt_of_lt_of_le (a b c : String) (h1 : strLt a b = true)
    (h2 : strLe b c = true) : strLt a c = true := by
  simp only [strLe, Bool.or_eq_true, beq_iff_eq] at h2
  rcases h2 with h2 | h2
  · exact strLt_trans a b c h1 h2
  · subst h2
    exact h1

theorem strLe_of_not_le (a b : String) (h : ¬ strLe a b = true) :
    strLe b a = true := by
  rcases strLe_total a b with h2 | h2
  · exact absurd h2 h
  · exact h2

end StrOrder

section SortRows

theorem sortRowsInsert_perm (r : DbRow) (l : List DbRow) :
    List.Perm (sortRowsInsert r l) (r :: l) := by
  induction l with
  | nil => simp [sortRowsInsert]
  | cons q rest ih =>
      simp only [sortRowsInsert]
      by_cases h : strLe r.objectid q.objectid = true
      · rw [if_pos h]
      · rw [if_neg h]
        exact (ih.cons q).trans (List.Perm.swap r q rest)

theorem sortRows_perm (l : List DbRow) : List.Perm (sortRows l) l := by
  induction l with
  | nil => simp [sortRows]
  | cons r rest ih =>
      simp only [sortRows]
      exact (sortRowsInsert_perm r (sortRows rest)).trans (ih.cons r)

theorem sortRowsInsert_pairwise (r : DbRow) (l : List DbRow)
    (h : l.Pairwise (fun a b => strLe a.objectid b.objectid = true)) :
    (sortRowsInsert r l).Pairwise
      (fun a b => strLe a.objectid b.objectid = true) := by
  induction l with
  | nil => simp [sortRowsInsert]
  | cons q rest ih =>
      rw [List.pairwise_cons] at h
      obtain ⟨hq, hrest⟩ := h
      simp only [sortRowsInsert]
      by_cases hle : strLe r.objectid q.objectid = true
      · rw [if_pos hle]
        rw [List.pairwise_cons]
        constructor
        · intro b hb
          rw [List.mem_cons] at hb
          rcases hb with hb | hb
          · subst hb
            exact hle
          · exact strLe_trans _ _ _ hle (hq b hb)
        · rw [List.pairwise_cons]
          exact ⟨hq, hrest⟩
      · rw [if_neg hle]
        rw [List.pairwise_cons]
        constructor
        · intro b hb
          have := (sortRowsInsert_perm r rest).mem_iff.mp hb
          rw [List.mem_cons] at this
          rcases this with hb2 | hb2
          · subst hb2
            exact strLe_of_not_le _ _ hle
          · exact hq b hb2
        · exact ih hrest

theorem sortRows_pairwise (l : List DbRow) :
    (sortRows l).Pairwise (fun a b => strLe a.objectid b.objectid = true) := by
  induction l with
  | nil => simp [sortRows]
  | cons r rest ih =>
      simp only [sortRows]
      exact sortRowsInsert_pairwise r (sortRows rest) ih

end SortRows

section ResultBuilderSpec

/-- The grouping scan of `ResultBuilder`, characterized on a sorted,
well-formed row list: it succeeds, the produced entity ids are the
current id followed by the remaining distinct ids in strictly
increasing order, and each record maps a key to a value exactly when
the accumulated dict or a row of that entity does. -/
theorem resultBuilderGo_spec :
    ∀ (rows : List DbRow) (oid : String) (dct : Record),
    rows.Pairwise (fun a b => strLe a.objectid b.objectid = true) →
    (∀ r ∈ rows, strLe oid r.objectid = true) →
    (∀ r ∈ rows, (getValue r).isSome ∧ r.mkey ≠ "") →
    ((rows.map (fun r => (r.objectid, r.mkey))).Nodup) →
    (∀ r ∈ rows, r.objectid = oid → r.mkey ∉ dct.map Prod.fst) →
    ((dictLookup dct "hash").isSome = true ∨
      ∃ r ∈ rows, r.objectid = oid ∧ r.mkey = "hash") →
    (∀ id, id ∈ rows.map (fun r => r.objectid) → id ≠ oid →
      ∃ h ∈ rows, h.objectid = id ∧ h.mkey = "hash") →
    ∃ out, resultBuilderGo rows oid dct = .ok out ∧
      (out.map Prod.fst).head? = some oid ∧
      (∀ id, id ∈ out.map Prod.fst ↔
        id = oid ∨ id ∈ rows.map (fun r => r.objectid)) ∧
      (out.map Prod.fst).Pairwise (fun a b => strLt a b = true) ∧
      (∀ p ∈ out, ∀ k v, dictLookup p.2 k = some v ↔
        (p.1 = oid ∧ dictLookup dct k = some v) ∨
        (∃ r ∈ rows, r.objectid = p.1 ∧ r.mkey = k ∧
          getValue r = some v)) := by
  intro rows
  induction rows with
  | nil =>
      intro oid dct _ _ _ _ _ hhash _
      have hh : (dictLookup dct "hash").isSome = true := by
        rcases hhash with hh | ⟨r, hr, -⟩
        · exact hh
        · cases hr
      refine ⟨[(oid, dct)], by simp [resultBuilderGo, hh], by simp, ?_, ?_, ?_⟩
      · intro id
        simp
      · simp
      · intro p hp k v
        rw [List.mem_singleton] at hp
        subst hp
        simp
  | cons r rest ih =>
      intro oid dct hsorted hge hvals hnodup hdisj hhash hfuture
      rw [List.pairwise_cons] at hsorted
      obtain ⟨hr_le, hsorted'⟩ := hsorted
      obtain ⟨v0, hv0⟩ : ∃ v0, getValue r = some v0 := by
        have := (hvals r (by simp)).1
        cases hgv : getValue r with
        | none => rw [hgv] at this; cases this
        | some v => exact ⟨v, rfl⟩
      simp only [List.map_cons, List.nodup_cons] at hnodup
      obtain ⟨hpair_nr, hnodup'⟩ := hnodup
      by_cases hroid : r.objectid = oid
      · -- the row extends the current group
        have hkm_nd : r.mkey ∉ dct.map Prod.fst :=
          hdisj r (by simp) hroid
        have hins : rbInsert dct r = .ok (dictInsert dct r.mkey v0) := by
          simp [rbInsert, hv0]
        have hdisj' : ∀ q ∈ rest, q.objectid = oid →
            q.mkey ∉ (dictInsert dct r.mkey v0).map Prod.fst := by
          intro q hq hqoid hmem
          rw [dictInsert_keys_of_not_mem dct r.mkey v0 hkm_nd] at hmem
          simp only [List.map_append, List.mem_append, List.map_cons,
            List.map_nil, List.mem_singleton] at hmem
          rcases hmem with hmem | hmem
          · exact hdisj q (by simp [hq]) hqoid hmem
          · apply hpair_nr
            have : (q.objectid, q.mkey) = (r.objectid, r.mkey) := by
              rw [hqoid, hroid, hmem]
            rw [← this]
            exact List.mem_map.mpr ⟨q, hq, rfl⟩
        have hhash' : (dictLookup (dictInsert dct r.mkey v0)
              "hash").isSome = true ∨
            ∃ q ∈ rest, q.objectid = oid ∧ q.mkey = "hash" := by
          rcases hhash with hh | ⟨q, hq, hqoid, hqk⟩
          · left
            rw [dictLookup_dictInsert]
            by_cases hk : "hash" = r.mkey
            · simp [hk]
            · simp only [hk, if_neg, not_false_eq_true, if_false]
              exact hh
          · rw [List.mem_cons] at hq
            rcases hq with hq | hq
            · left
              subst hq
              rw [dictLookup_dictInsert]
              simp [hqk]
            · right
              exact ⟨q, hq, hqoid, hqk⟩
        have hfuture' : ∀ id, id ∈ rest.map (fun r => r.objectid) →
            id ≠ oid → ∃ h ∈ rest, h.objectid = id ∧ h.mkey = "hash" := by
          intro id hid hne
          obtain ⟨h, hh, hhoid, hhk⟩ := hfuture id (by simp [hid]) hne
          rw [List.mem_cons] at hh
          rcases hh with hh | hh
          · exfalso
            subst hh
            rw [hroid] at hhoid
            exact hne hhoid.symm
          · exact ⟨h, hh, hhoid, hhk⟩
        obtain ⟨out, hout, hhead, hmem, hpw, hlook⟩ :=
          ih oid (dictInsert dct r.mkey v0) hsorted'
            (fun q hq => hge q (by simp [hq]))
            (fun q hq => hvals q (by simp [hq]))
            hnodup' hdisj' hhash' hfuture'
        refine ⟨out, ?_, hhead, ?_, hpw, ?_⟩
        · simp only [resultBuilderGo, hroid, if_pos, hins]
          exact hout
        · intro id
          rw [hmem id]
          simp only [List.map_cons, List.mem_cons, hroid]
          constructor
          · rintro (h | h)
            · exact Or.inl h
            · exact Or.inr (Or.inr h)
          · rintro (h | h | h)
            · exact Or.inl h
            · exact Or.inl h
            · exact Or.inr h
        · intro p hp k v
          rw [hlook p hp k v]
          constructor
          · rintro (⟨hpoid, hlk⟩ | ⟨q, hq, hqoid, hqk, hqv⟩)
            · rw [dictLookup_dictInsert] at hlk
              by_cases hk : k = r.mkey
              · right
                refine ⟨r, by simp, by rw [hroid, hpoid], hk.symm, ?_⟩
                rw [hv0]
                rw [if_pos hk] at hlk
                exact hlk
              · rw [if_neg hk] at hlk
                exact Or.inl ⟨hpoid, hlk⟩
            · exact Or.inr ⟨q, by simp [hq], hqoid, hqk, hqv⟩
          · rintro (⟨hpoid, hlk⟩ | ⟨q, hq, hqoid, hqk, hqv⟩)
            · left
              refine ⟨hpoid, ?_⟩
              rw [dictLookup_dictInsert]
              have hk : ¬ k = r.mkey := by
                intro hc
                apply hkm_nd
                rw [← hc]
                rw [← dictLookup_isSome_iff]
                rw [hlk]
                rfl
              rw [if_neg hk]
              exact hlk
            · rw [List.mem_cons] at hq
              rcases hq with hq | hq
              · left
                subst hq
                refine ⟨by rw [← hqoid, hroid], ?_⟩
                rw [dictLookup_dictInsert]
                rw [hqk, if_pos rfl, ← hqv, hv0]
              · exact Or.inr ⟨q, hq, hqoid, hqk, hqv⟩
      · -- the row starts a new group
        have hoid_lt : strLt oid r.objectid = true :=
          strLt_of_le_ne oid r.objectid (hge r (by simp))
            (fun hc => hroid hc.symm)
        have hno_oid : ∀ q ∈ rest, q.objectid ≠ oid := by
          intro q hq hc
          have h1 : strLe r.objectid q.objectid = true := hr_le q hq
          rw [hc] at h1
          have h2 : strLe oid r.objectid = true := hge r (by simp)
          exact hroid (strLe_antisymm _ _ h1 h2)
        have hh : (dictLookup dct "hash").isSome = true := by
          rcases hhash with hh | ⟨q, hq, hqoid, -⟩
          · exact hh
          · exfalso
            rw [List.mem_cons] at hq
            rcases hq with hq | hq
            · exact hroid (hq ▸ hqoid)
            · exact hno_oid q hq hqoid
        have hstart : rbStart r = .ok [(r.mkey, v0)] := by
          simp [rbStart, (hvals r (by simp)).2, hv0]
        have hdisj0 : ∀ q ∈ rest, q.objectid = r.objectid →
            q.mkey ∉ ([(r.mkey, v0)] : Record).map Prod.fst := by
          intro q hq hqoid hmem
          simp only [List.map_cons, List.map_nil,
            List.mem_singleton] at hmem
          apply hpair_nr
          have : (q.objectid, q.mkey) = (r.objectid, r.mkey) := by
            rw [hqoid, hmem]
          rw [← this]
          exact List.mem_map.mpr ⟨q, hq, rfl⟩
        have hhash0 : (dictLookup ([(r.mkey, v0)] : Record)
              "hash").isSome = true ∨
            ∃ q ∈ rest, q.objectid = r.objectid ∧ q.mkey = "hash" := by
          obtain ⟨h, hh2, hhoid, hhk⟩ := hfuture r.objectid (by simp)
            (fun hc => hroid hc)
          rw [List.mem_cons] at hh2
          rcases hh2 with hh2 | hh2
          · left
            subst hh2
            simp [dictLookup, hhk]
          · right
            exact ⟨h, hh2, hhoid, hhk⟩
        have hfuture0 : ∀ id, id ∈ rest.map (fun r => r.objectid) →
            id ≠ r.objectid →
            ∃ h ∈ rest, h.objectid = id ∧ h.mkey = "hash" := by
          intro id hid hne
          have hidne : id ≠ oid := by
            intro hc
            obtain ⟨q, hq, hqoid⟩ := List.mem_map.mp hid
            exact hno_oid q hq (by rw [hqoid, hc])
          obtain ⟨h, hh2, hhoid, hhk⟩ := hfuture id (by simp [hid]) hidne
          rw [List.mem_cons] at hh2
          rcases hh2 with hh2 | hh2
          · exfalso
            subst hh2
            exact hne hhoid.symm
          · exact ⟨h, hh2, hhoid, hhk⟩
        obtain ⟨out, hout, hhead, hmem, hpw, hlook⟩ :=
          ih r.objectid [(r.mkey, v0)] hsorted' hr_le
            (fun q hq => hvals q (by simp [hq]))
            hnodup' hdisj0 hhash0 hfuture0
        refine ⟨(oid, dct) :: out, ?_, by simp, ?_, ?_, ?_⟩
        · simp only [resultBuilderGo, hroid, if_neg, not_false_eq_true, hh,
            if_pos, hstart, hout]
        · intro id
          simp only [List.map_cons, List.mem_cons]
          rw [hmem id]
        · simp only [List.map_cons]
          rw [List.pairwise_cons]
          refine ⟨?_, hpw⟩
          intro id hid
          rw [hmem id] at hid
          have hle : strLe r.objectid id = true := by
            rcases hid with hid | hid
            · subst hid
              exact strLe_refl _
            · obtain ⟨q, hq, hqoid⟩ := List.mem_map.mp hid
              rw [← hqoid]
              exact hr_le q hq
          exact strLt_of_lt_of_le oid r.objectid id hoid_lt hle
        · intro p hp k v
          rw [List.mem_cons] at hp
          rcases hp with hp | hp
          · subst hp
            dsimp only
            constructor
            · intro hlk
              exact Or.inl ⟨rfl, hlk⟩
            · rintro (⟨-, hlk⟩ | ⟨q, hq, hqoid, -, -⟩)
              · exact hlk
              · exfalso
                rw [List.mem_cons] at hq
                rcases hq with hq | hq
                · exact hroid (hq ▸ hqoid)
                · exact hno_oid q hq hqoid
          · have hpne : p.1 ≠ oid := by
              have hpid : p.1 ∈ out.map Prod.fst :=
                List.mem_map.mpr ⟨p, hp, rfl⟩
              rw [hmem p.1] at hpid
              have hle2 : strLe r.objectid p.1 = true := by
                rcases hpid with hpid | hpid
                · rw [hpid]
                  exact strLe_refl _
                · obtain ⟨q, hq, hqoid⟩ := List.mem_map.mp hpid
                  rw [← hqoid]
                  exact hr_le q hq
              intro hc
              have := strLt_of_lt_of_le oid r.objectid p.1 hoid_lt hle2
              rw [hc] at this
              rw [strLt_irrefl] at this
              cases this
            have hsing : ∀ k2 v2, dictLookup ([(r.mkey, v0)] : Record) k2 =
                some v2 ↔ k2 = r.mkey ∧ v2 = v0 := by
              intro k2 v2
              by_cases hk2 : r.mkey = k2
              · subst hk2
                simp [dictLookup, eq_comm]
              · constructor
                · intro hlk
                  exfalso
                  simp [dictLookup, hk2] at hlk
                · rintro ⟨hc, -⟩
                  exact absurd hc.symm hk2
            rw [hlook p hp k v]
            constructor
            · rintro (⟨hp1, hlkv⟩ | ⟨q, hq, hqoid, hqk, hqv⟩)
              · obtain ⟨hk, hv⟩ := (hsing k v).mp hlkv
                refine Or.inr ⟨r, by simp, hp1.symm, hk.symm, ?_⟩
                rw [hv0, hv]
              · exact Or.inr ⟨q, by simp [hq], hqoid, hqk, hqv⟩
            · rintro (⟨hp1, -⟩ | ⟨q, hq, hqoid, hqk, hqv⟩)
              · exact absurd hp1 hpne
              · rw [List.mem_cons] at hq
                rcases hq with hq | hq
                · left
                  subst hq
                  refine ⟨hqoid.symm, ?_⟩
                  rw [hsing k v]
                  refine ⟨hqk.symm, ?_⟩
                  rw [hqv] at hv0
                  exact Option.some.inj hv0
                · exact Or.inr ⟨q, hq, hqoid, hqk, hqv⟩

end ResultBuilderSpec

section QuerySpec

/-- Does an entity satisfy one compiled condition: some row of the
entity matches the alias (this is what an `INNER JOIN` partner for that
alias means). -/
def entSat (db : Db) (oid : String) (c : CompiledCond) : Bool :=
  db.any (fun r => r.objectid == oid && rowSat r c)

/-- The well-formedness invariant `add` maintains on the table and
`ResultBuilder` relies on: every row carries a value and a non-empty
key, no entity stores the same key twice, and every entity has a
`hash` row. -/
def dbWF (db : Db) : Prop :=
  (∀ r ∈ db, (getValue r).isSome = true ∧ r.mkey ≠ "") ∧
  ((db.map (fun r => (r.objectid, r.mkey))).Nodup) ∧
  (∀ id ∈ db.map (fun r => r.objectid),
    ∃ h ∈ db, h.objectid = id ∧ h.mkey = "hash")

theorem entSat_iff (db : Db) (oid : String) (c : CompiledCond) :
    entSat db oid c = true ↔
      ∃ r ∈ db, r.objectid = oid ∧ rowSat r c = true := by
  unfold entSat
  rw [List.any_eq_true]
  constructor
  · rintro ⟨r, hr, hcond⟩
    rw [Bool.and_eq_true, beq_iff_eq] at hcond
    exact ⟨r, hr, hcond.1, hcond.2⟩
  · rintro ⟨r, hr, hoid, hsat⟩
    exact ⟨r, hr, by rw [Bool.and_eq_true, beq_iff_eq]; exact ⟨hoid, hsat⟩⟩

theorem foldl_mul_pos (l : List Nat) : ∀ a : Nat,
    0 < l.foldl (· * ·) a ↔ 0 < a ∧ ∀ x ∈ l, 0 < x := by
  induction l with
  | nil =>
      intro a
      simp
  | cons x xs ih =>
      intro a
      rw [List.foldl_cons, ih (a * x)]
      constructor
      · rintro ⟨hax, hall⟩
        have ha : 0 < a := by
          rcases Nat.eq_zero_or_pos a with h | h
          · subst h
            simp at hax
          · exact h
        have hx : 0 < x := by
          rcases Nat.eq_zero_or_pos x with h | h
          · subst h
            simp at hax
          · exact h
        refine ⟨ha, ?_⟩
        intro y hy
        rw [List.mem_cons] at hy
        rcases hy with hy | hy
        · subst hy
          exact hx
        · exact hall y hy
      · rintro ⟨ha, hall⟩
        refine ⟨Nat.mul_pos ha (hall x (by simp)), ?_⟩
        intro y hy
        exact hall y (by simp [hy])

theorem countMatches_pos (db : Db) (oid : String) (c : CompiledCond) :
    0 < countMatches db oid c ↔ entSat db oid c = true := by
  rw [entSat_iff]
  unfold countMatches
  rw [List.length_pos_iff_exists_mem]
  constructor
  · rintro ⟨r, hr⟩
    rw [List.mem_filter, Bool.and_eq_true, beq_iff_eq] at hr
    exact ⟨r, hr.1, hr.2.1, hr.2.2⟩
  · rintro ⟨r, hr, hoid, hsat⟩
    refine ⟨r, ?_⟩
    rw [List.mem_filter, Bool.and_eq_true, beq_iff_eq]
    exact ⟨hr, hoid, hsat⟩

theorem comboCount_pos (db : Db) (oid : String) (rest : List CompiledCond) :
    0 < comboCount db oid rest ↔ ∀ c ∈ rest, entSat db oid c = true := by
  unfold comboCount
  rw [foldl_mul_pos]
  constructor
  · rintro ⟨-, hall⟩ c hc
    rw [← countMatches_pos]
    exact hall _ (List.mem_map.mpr ⟨c, hc, rfl⟩)
  · intro h
    refine ⟨Nat.one_pos, ?_⟩
    intro x hx
    obtain ⟨c, hc, rfl⟩ := List.mem_map.mp hx
    rw [countMatches_pos]
    exact h c hc

theorem mem_joinIds (db : Db) (c0 : CompiledCond) (rest : List CompiledCond)
    (id : String) :
    id ∈ joinIds db c0 rest ↔
      entSat db id c0 = true ∧ ∀ c ∈ rest, entSat db id c = true := by
  unfold joinIds
  rw [List.mem_flatMap]
  constructor
  · rintro ⟨r, hr, hrep⟩
    rw [List.mem_replicate] at hrep
    obtain ⟨hne, rfl⟩ := hrep
    rw [List.mem_filter] at hr
    obtain ⟨hrdb, hsat⟩ := hr
    constructor
    · rw [entSat_iff]
      exact ⟨r, hrdb, rfl, hsat⟩
    · rw [← comboCount_pos]
      exact Nat.pos_of_ne_zero hne
  · rintro ⟨h0, hrest⟩
    rw [entSat_iff] at h0
    obtain ⟨r, hrdb, hroid, hsat⟩ := h0
    refine ⟨r, List.mem_filter.mpr ⟨hrdb, hsat⟩, ?_⟩
    rw [List.mem_replicate]
    refine ⟨?_, hroid.symm⟩
    rw [← Nat.pos_iff_ne_zero, comboCount_pos, hroid]
    exact hrest

theorem dictLookup_singleton (km : String) (v0 : PyValue) (k : String)
    (v : PyValue) :
    dictLookup [(km, v0)] k = some v ↔ k = km ∧ v = v0 := by
  constructor
  · intro h
    by_cases hk : km = k
    · subst hk
      simp [dictLookup] at h
      exact ⟨rfl, h.symm⟩
    · simp [dictLookup, hk] at h
  · rintro ⟨rfl, rfl⟩
    simp [dictLookup]

theorem resultBuilder_sorted_spec (rows : List DbRow)
    (hsorted : rows.Pairwise (fun a b => strLe a.objectid b.objectid = true))
    (hvals : ∀ r ∈ rows, (getValue r).isSome = true ∧ r.mkey ≠ "")
    (hnodup : (rows.map (fun r => (r.objectid, r.mkey))).Nodup)
    (hhash : ∀ id ∈ rows.map (fun r => r.objectid),
      ∃ h ∈ rows, h.objectid = id ∧ h.mkey = "hash") :
    ∃ out, resultBuilder rows = .ok out ∧
      (∀ id, id ∈ out.map Prod.fst ↔
        id ∈ rows.map (fun r => r.objectid)) ∧
      (out.map Prod.fst).Pairwise (fun a b => strLt a b = true) ∧
      (∀ p ∈ out, ∀ k v, dictLookup p.2 k = some v ↔
        ∃ r ∈ rows, r.objectid = p.1 ∧ r.mkey = k ∧
          getValue r = some v) := by
  cases rows with
  | nil =>
      exact ⟨[], rfl, by simp, by simp, by simp⟩
  | cons r rest =>
      obtain ⟨hv0s, hk0⟩ := hvals r (by simp)
      obtain ⟨v0, hv0⟩ := Option.isSome_iff_exists.mp hv0s
      have hstart : rbStart r = .ok [(r.mkey, v0)] := by
        unfold rbStart
        rw [if_neg hk0, hv0]
      rw [List.pairwise_cons] at hsorted
      obtain ⟨hr_le, hsorted'⟩ := hsorted
      rw [List.map_cons, List.nodup_cons] at hnodup
      obtain ⟨hpair_nr, hnodup'⟩ := hnodup
      have hdisj : ∀ q ∈ rest, q.objectid = r.objectid →
          q.mkey ∉ ([(r.mkey, v0)] : Record).map Prod.fst := by
        intro q hq hqoid hqk
        simp only [List.map_cons, List.map_nil, List.mem_singleton] at hqk
        exact hpair_nr (List.mem_map.mpr ⟨q, hq, by rw [hqoid, hqk]⟩)
      have hhash0 : (dictLookup ([(r.mkey, v0)] : Record) "hash").isSome =
          true ∨ ∃ q ∈ rest, q.objectid = r.objectid ∧ q.mkey = "hash" := by
        obtain ⟨h, hh, hhoid, hhk⟩ := hhash r.objectid (by simp)
        rw [List.mem_cons] at hh
        rcases hh with hh | hh
        · left
          subst hh
          simp [dictLookup, hhk]
        · exact Or.inr ⟨h, hh, hhoid, hhk⟩
      have hfut : ∀ id, id ∈ rest.map (fun q => q.objectid) →
          id ≠ r.objectid → ∃ h ∈ rest, h.objectid = id ∧ h.mkey = "hash" := by
        intro id hid hne
        obtain ⟨h, hh, hhoid, hhk⟩ := hhash id (by simp [hid])
        rw [List.mem_cons] at hh
        rcases hh with hh | hh
        · exfalso
          subst hh
          exact hne hhoid.symm
        · exact ⟨h, hh, hhoid, hhk⟩
      obtain ⟨out, hout, hhead, hmem, hpw, hlook⟩ :=
        resultBuilderGo_spec rest r.objectid [(r.mkey, v0)] hsorted' hr_le
          (fun q hq => hvals q (by simp [hq])) hnodup' hdisj hhash0 hfut
      refine ⟨out, ?_, ?_, hpw, ?_⟩
      · unfold resultBuilder
        dsimp only
        rw [hstart]
        exact hout
      · intro id
        rw [hmem id]
        simp [List.mem_cons]
      · intro p hp k v
        rw [hlook p hp k v]
        constructor
        · rintro (⟨hp1, hlkv⟩ | ⟨q, hq, hqoid, hqk, hqv⟩)
          · obtain ⟨hk, hv⟩ := (dictLookup_singleton r.mkey v0 k v).mp hlkv
            refine ⟨r, by simp, hp1.symm, hk.symm, ?_⟩
            rw [hv0, hv]
          · exact ⟨q, by simp [hq], hqoid, hqk, hqv⟩
        · rintro ⟨q, hq, hqoid, hqk, hqv⟩
          rw [List.mem_cons] at hq
          rcases hq with hq | hq
          · subst hq
            refine Or.inl ⟨hqoid.symm, ?_⟩
            rw [dictLookup_singleton]
            refine ⟨hqk.symm, ?_⟩
            rw [hqv] at hv0
            exact Option.some.inj hv0
          · exact Or.inr ⟨q, hq, hqoid, hqk, hqv⟩

theorem resultBuilder_select (db : Db) (ids : List String)
    (hvals : ∀ r ∈ db, (getValue r).isSome = true ∧ r.mkey ≠ "")
    (hnodup : (db.map (fun r => (r.objectid, r.mkey))).Nodup)
    (hhash : ∀ id ∈ db.map (fun r => r.objectid),
      ∃ h ∈ db, h.objectid = id ∧ h.mkey = "hash") :
    ∃ out,
      resultBuilder
        (sortRows (db.filter (fun r => ids.contains r.objectid))) = .ok out ∧
      (∀ id, id ∈ out.map Prod.fst ↔
        ids.contains id = true ∧ id ∈ db.map (fun r => r.objectid)) ∧
      (out.map Prod.fst).Pairwise (fun a b => strLt a b = true) ∧
      (∀ p ∈ out, ∀ k v, dictLookup p.2 k = some v ↔
        ∃ r ∈ db, r.objectid = p.1 ∧ r.mkey = k ∧
          getValue r = some v) := by
  have hperm :
      List.Perm (sortRows (db.filter (fun r => ids.contains r.objectid)))
        (db.filter (fun r => ids.contains r.objectid)) :=
    sortRows_perm _
  have hmemr : ∀ r,
      r ∈ sortRows (db.filter (fun r => ids.contains r.objectid)) ↔
        r ∈ db ∧ ids.contains r.objectid = true := by
    intro r
    rw [hperm.mem_iff, List.mem_filter]
  obtain ⟨out, hout, hmem, hpw, hlook⟩ :=
    resultBuilder_sorted_spec
      (sortRows (db.filter (fun r => ids.contains r.objectid)))
      (sortRows_pairwise _)
      (fun r hr => hvals r ((hmemr r).mp hr).1)
      (by
        have hsub :
            ((db.filter (fun r => ids.contains r.objectid)).map
              (fun r => (r.objectid, r.mkey))).Nodup :=
          hnodup.sublist ((List.filter_sublist db).map _)
        exact (hperm.map (fun r => (r.objectid, r.mkey))).nodup_iff.mpr hsub)
      (by
        intro id hid
        obtain ⟨r, hr, hroid⟩ := List.mem_map.mp hid
        obtain ⟨hrdb, hrc⟩ := (hmemr r).mp hr
        obtain ⟨h, hhdb, hhoid, hhk⟩ :=
          hhash id (List.mem_map.mpr ⟨r, hrdb, hroid⟩)
        refine ⟨h, (hmemr h).mpr ⟨hhdb, ?_⟩, hhoid, hhk⟩
        rw [hhoid, ← hroid]
        exact hrc)
  refine ⟨out, hout, ?_, hpw, ?_⟩
  · intro id
    rw [hmem id]
    constructor
    · intro hid
      obtain ⟨r, hr, hroid⟩ := List.mem_map.mp hid
      obtain ⟨hrdb, hrc⟩ := (hmemr r).mp hr
      exact ⟨by rw [← hroid]; exact hrc, List.mem_map.mpr ⟨r, hrdb, hroid⟩⟩
    · rintro ⟨hc, hid⟩
      obtain ⟨r, hr, hroid⟩ := List.mem_map.mp hid
      refine List.mem_map.mpr ⟨r, (hmemr r).mpr ⟨hr, ?_⟩, hroid⟩
      rw [hroid]
      exact hc
  · intro p hp k v
    rw [hlook p hp k v]
    constructor
    · rintro ⟨r, hr, hroid, hrk, hrv⟩
      exact ⟨r, ((hmemr r).mp hr).1, hroid, hrk, hrv⟩
    · rintro ⟨r, hr, hroid, hrk, hrv⟩
      have hpin : ids.contains p.1 = true := by
        have hp1 : p.1 ∈ out.map Prod.fst := List.mem_map.mpr ⟨p, hp, rfl⟩
        rw [hmem p.1] at hp1
        obtain ⟨q, hq, hqoid⟩ := List.mem_map.mp hp1
        exact (((hmemr q).mp hq).2.symm.trans (by rw [hqoid])).symm
      refine ⟨r, (hmemr r).mpr ⟨hr, ?_⟩, hroid, hrk, hrv⟩
      rw [hroid]
      exact hpin

end QuerySpec

/-- A table with one entity whose attribute `c` holds the *string*
`"x"`: the condition `{c: {type: "int"}}` matches it anyway, because
the dead `IS NOT NULL` branch of `_make_conditions` is never taken and
a dict carrying only `type` compiles to zero value predicates. -/
def c4db : Db :=
  [⟨"e", "hash", some "h1", none⟩,
   ⟨"e", "c", some "x", none⟩]

/-- C4 counterexample: per the claim, the condition `{c: {type: int}}`
means "key `c` exists with type `int`", so it should not match an
entity whose `c` is a string; the code returns that entity anyway (its
`c` row has a NULL integer column), because `req = iter(req.items())`
makes `if req:` always true and the type-only condition degenerates to
bare key existence. -/
theorem c4_counterexample :
    MetadataStore.query_all c4db
        [("c", PyValue.pdict [("type", PyScalar.pstr "int")])] none =
      .ok [("e", [("hash", PyValue.pstr "h1"), ("c", PyValue.pstr "x")])] ∧
    ∀ r ∈ c4db, r.mkey = "c" → r.mvalue_int = none := by
  constructor
  · rfl
  · decide

/-- C4 (amended): for a well-formed table and a condition mapping that
compiles (to `c0 :: rest`) with every operand inside the model
(`atomModeled`: no float operands and no real-literal text against the
INTEGER column), `query_all` is conjunctive existential row-matching:
without a limit it returns exactly the entities that have, for every
compiled condition, at least one row matching it (equality with
SQLite's affinity conversion for bare scalars and `equal`, strict
integer comparison — again through affinity conversion of integer
text — for `gt`/`lt`, bare key existence for an empty dict AND for
`{type: T}` alone — the type-only condition does not check the type);
each returned entity carries its full reconstructed record (a key maps
to a value exactly when one of the entity's rows does), results are
strictly ordered by entity id; with `LIMIT n` at most `n` entities
come back and every one of them satisfies all conditions, with the
same full records and order.  The last conjunct pins the corrected
type-only semantics: `{type: T}` compiles to zero value predicates and
its row filter tests only the key. -/
theorem c4_query_all_conjunctive (db : Db) (conds : List (String × PyValue))
    (c0 : CompiledCond) (rest : List CompiledCond) (hWF : dbWF db)
    (hcomp : compileAll conds = .ok (c0 :: rest))
    (_hmodeled : ∀ c ∈ c0 :: rest, c.atoms.all atomModeled = true) :
    (∃ out, MetadataStore.query_all db conds none = .ok out ∧
      (∀ id, id ∈ out.map Prod.fst ↔
        entSat db id c0 = true ∧ ∀ c ∈ rest, entSat db id c = true) ∧
      (out.map Prod.fst).Pairwise (fun a b => strLt a b = true) ∧
      (∀ p ∈ out, ∀ k v, dictLookup p.2 k = some v ↔
        ∃ r ∈ db, r.objectid = p.1 ∧ r.mkey = k ∧ getValue r = some v)) ∧
    (∀ n, ∃ out, MetadataStore.query_all db conds (some n) = .ok out ∧
      out.length ≤ n ∧
      (∀ id ∈ out.map Prod.fst,
        entSat db id c0 = true ∧ ∀ c ∈ rest, entSat db id c = true) ∧
      (out.map Prod.fst).Pairwise (fun a b => strLt a b = true) ∧
      (∀ p ∈ out, ∀ k v, dictLookup p.2 k = some v ↔
        ∃ r ∈ db, r.objectid = p.1 ∧ r.mkey = k ∧ getValue r = some v)) ∧
    (∀ k t, (t = "str" ∨ t = "int") →
      compileCond (k, PyValue.pdict [("type", PyScalar.pstr t)]) =
        .ok ⟨k, []⟩ ∧
      ∀ r, rowSat r ⟨k, []⟩ = (r.mkey == k)) := by
  obtain ⟨hvals, hnodup, hhash⟩ := hWF
  obtain ⟨c, cs, rfl⟩ : ∃ c cs, conds = c :: cs := by
    cases conds with
    | nil => simp [compileAll] at hcomp
    | cons c cs => exact ⟨c, cs, rfl⟩
  have hmain : ∀ L : Option Nat, ∃ out,
      MetadataStore.query_all db (c :: cs) L = .ok out ∧
      (∀ id, id ∈ out.map Prod.fst ↔
        (takeOpt L (joinIds db c0 rest)).contains id = true ∧
        id ∈ db.map (fun r => r.objectid)) ∧
      (out.map Prod.fst).Pairwise (fun a b => strLt a b = true) ∧
      (∀ p ∈ out, ∀ k v, dictLookup p.2 k = some v ↔
        ∃ r ∈ db, r.objectid = p.1 ∧ r.mkey = k ∧
          getValue r = some v) := by
    intro L
    obtain ⟨out, hout, hmem, hpw, hlook⟩ :=
      resultBuilder_select db (takeOpt L (joinIds db c0 rest))
        hvals hnodup hhash
    refine ⟨out, ?_, hmem, hpw, hlook⟩
    unfold MetadataStore.query_all
    dsimp only
    rw [hcomp]
    dsimp only
    rw [hout]
  refine ⟨?_, ?_, ?_⟩
  · obtain ⟨out, hq, hmem, hpw, hlook⟩ := hmain none
    refine ⟨out, hq, ?_, hpw, hlook⟩
    intro id
    rw [hmem id]
    constructor
    · rintro ⟨hc, -⟩
      rw [contains_iff] at hc
      exact (mem_joinIds db c0 rest id).mp hc
    · intro hsat
      refine ⟨?_, ?_⟩
      · rw [contains_iff]
        exact (mem_joinIds db c0 rest id).mpr hsat
      · obtain ⟨r, hr, hroid, -⟩ := (entSat_iff db id c0).mp hsat.1
        exact List.mem_map.mpr ⟨r, hr, hroid⟩
  · intro n
    obtain ⟨out, hq, hmem, hpw, hlook⟩ := hmain (some n)
    have hnd : (out.map Prod.fst).Nodup := by
      refine hpw.imp ?_
      intro a b hab he
      rw [he, strLt_irrefl] at hab
      cases hab
    have hsub : out.map Prod.fst ⊆ (joinIds db c0 rest).take n := by
      intro x hx
      rw [hmem x] at hx
      have := hx.1
      rw [contains_iff] at this
      exact this
    refine ⟨out, hq, ?_, ?_, hpw, hlook⟩
    · calc out.length = (out.map Prod.fst).length :=
            (List.length_map _ _).symm
        _ = (out.map Prod.fst).toFinset.card :=
            (List.toFinset_card_of_nodup hnd).symm
        _ ≤ ((joinIds db c0 rest).take n).toFinset.card := by
            refine Finset.card_le_card ?_
            intro x hx
            rw [List.mem_toFinset] at hx ⊢
            exact hsub hx
        _ ≤ ((joinIds db c0 rest).take n).length :=
            List.toFinset_card_le _
        _ ≤ n := by
            rw [List.length_take]
            exact min_le_left _ _
    · intro id hid
      rw [hmem id] at hid
      have hmj : id ∈ joinIds db c0 rest := by
        have := hid.1
        rw [contains_iff] at this
        exact List.take_subset _ _ this
      exact (mem_joinIds db c0 rest id).mp hmj
  · intro k t ht
    constructor
    · rcases ht with rfl | rfl <;> rfl
    · intro r
      simp [rowSat]

/-- The spec's own query example: entities with `{c: 41}`,
`{c: 12, d: "common"}` and `{d: "common"}`. -/
def c4wdb : Db :=
  [⟨"a1", "hash", some "ha", none⟩,
   ⟨"a1", "c", none, some 41⟩,
   ⟨"b2", "hash", some "hb", none⟩,
   ⟨"b2", "c", none, some 12⟩,
   ⟨"b2", "d", some "common", none⟩,
   ⟨"e3", "hash", some "he", none⟩,
   ⟨"e3", "d", some "common", none⟩]

/-- C4 witness: the hypotheses of `c4_query_all_conjunctive` hold for
the spec's example table and the query `{d: "common"}` (which compiles
to a single string-equality condition), and the characterization
follows for it. -/
theorem c4_witness :
    dbWF c4wdb ∧
    compileAll [("d", PyValue.pstr "common")] =
      .ok [⟨"d", [Atom.aeq Ty.tstr (PyScalar.pstr "common")]⟩] ∧
    (∀ c ∈ [(⟨"d", [Atom.aeq Ty.tstr (PyScalar.pstr "common")]⟩ :
        CompiledCond)], c.atoms.all atomModeled = true) ∧
    (∃ out,
      MetadataStore.query_all c4wdb [("d", PyValue.pstr "common")] none =
        .ok out ∧
      (∀ id, id ∈ out.map Prod.fst ↔
        entSat c4wdb id
          ⟨"d", [Atom.aeq Ty.tstr (PyScalar.pstr "common")]⟩ = true ∧
        ∀ c ∈ ([] : List CompiledCond), entSat c4wdb id c = true) ∧
      (out.map Prod.fst).Pairwise (fun a b => strLt a b = true) ∧
      (∀ p ∈ out, ∀ k v, dictLookup p.2 k = some v ↔
        ∃ r ∈ c4wdb, r.objectid = p.1 ∧ r.mkey = k ∧
          getValue r = some v)) :=
  ⟨⟨by decide, by decide, by decide⟩, rfl, by decide,
   (c4_query_all_conjunctive c4wdb [("d", PyValue.pstr "common")]
      ⟨"d", [Atom.aeq Ty.tstr (PyScalar.pstr "common")]⟩ []
      ⟨by decide, by decide, by decide⟩ rfl (by decide)).1⟩

section SymlinkLoop

theorem realpath_append_single (fs : Fs) (p : FPath) (c : String) :
    realpath fs (p ++ [c]) = realpathStep fs (realpath fs p) c := by
  unfold realpath
  rw [List.foldl_append]
  rfl

/-- A tree whose directory `r/a` contains a symlink `r/a/b` back to its
ancestor `r/a` — an already-visited directory of the traversal when
`r/a/b` is reached. -/
def fsInTree : Fs :=
  ⟨[(["r"], FsNode.dir),
    (["r", "a"], FsNode.dir),
    (["r", "a", "b"], FsNode.link ["r", "a"]),
    (["r", "f"], FsNode.file "x")]⟩

/-- C8 counterexample: `r/a/b` is a symlink resolving to the visited
ancestor directory `r/a`, yet `hash_directory` does not raise
`LoopDetected`: because the target lies strictly inside the root, the
link is relativized and hashed as a `link` line without recursing, and
the traversal returns a digest normally. -/
theorem c8_counterexample :
    islink fsInTree ["r", "a", "b"] = true ∧
    linkTarget fsInTree ["r", "a", "b"] = some ["r", "a"] ∧
    leadSeg ["r", "a"] ["r", "a", "b"] = true ∧
    hashDirectoryTop fsInTree 4 ["r"] =
      .ok "dir\ndir a dir\nlink b .\n\nfile f file\nx\n" := by
  refine ⟨by decide, by decide, by decide, by decide⟩

/-- C8 (amended): the loop detection does fire — and before any
unbounded recursion — when a symlink's resolved target is the
traversal root itself, because `relativize_link` requires the target
to be *strictly* inside the root (`commonprefix` against
`root + os.sep`), so a root link is not relativized, is recursed into
as a directory, and the visited-set check raises immediately.  Here:
for any filesystem whose hashed directory's first listed entry is a
symlink to the hashed root, `hash_directory` returns the loop error
for every recursion budget of at least 2. -/
theorem c8_root_link_loop (fs : Fs) (path : FPath) (f : String)
    (rest : List String) (fuel : Nat) (hfuel : 2 ≤ fuel)
    (hdir : fsFind fs (realpath fs path) = some FsNode.dir)
    (hcanon : realpath fs (realpath fs path) = realpath fs path)
    (hlist : listdirSorted fs path = f :: rest)
    (hlink : fsFind fs (realpath fs path ++ [f]) =
      some (FsNode.link (realpath fs path))) :
    hashDirectoryTop fs fuel path = .error HashDirErr.loopDetected := by
  obtain ⟨m, rfl⟩ : ∃ m, fuel = m + 2 := ⟨fuel - 2, by omega⟩
  have hlast : (path ++ [f]).getLast? = some f := by simp
  have hdrop : (path ++ [f]).dropLast = path := by simp
  have hislink : islink fs (path ++ [f]) = true := by
    unfold islink
    rw [hlast]
    dsimp only
    rw [hdrop, hlink]
  have htarget : linkTarget fs (path ++ [f]) = some (realpath fs path) := by
    unfold linkTarget
    rw [hlast]
    dsimp only
    rw [hdrop, hlink]
  have hrel : relativize_link fs (path ++ [f]) (realpath fs path) = none := by
    unfold relativize_link
    rw [htarget]
    dsimp only
    rw [hcanon, if_neg]
    intro hcond
    exact hcond.2 rfl
  have hrpf : realpath fs (path ++ [f]) = realpath fs path := by
    rw [realpath_append_single]
    unfold realpathStep
    rw [hlink]
  have hisdir : isdir fs (path ++ [f]) = true := by
    unfold isdir
    rw [hrpf, hdir]
  have hinner : hash_directory fs (m + 1) (path ++ [f]) (realpath fs path)
      [realpath fs path] = .error HashDirErr.loopDetected := by
    unfold hash_directory
    dsimp only
    rw [hrpf]
    have hc : ([realpath fs path] : List FPath).contains
        (realpath fs path) = true := by simp
    rw [if_pos hc]
  have hmain : hash_directory fs (m + 1 + 1) path (realpath fs path) [] =
      .error HashDirErr.loopDetected := by
    unfold hash_directory
    dsimp only
    have hc0 : ¬ (([] : List FPath).contains (realpath fs path) = true) := by
      simp
    rw [if_neg hc0, hdir]
    dsimp only
    rw [hlist]
    unfold hashEntries
    dsimp only
    rw [if_pos hislink, hrel]
    dsimp only
    rw [if_pos hisdir]
    rw [hinner]
  unfold hashDirectoryTop
  rw [show m + 2 = m + 1 + 1 from rfl, hmain]

/-- The simplest root loop: `r/self` is a symlink to `r` itself. -/
def fsLoop : Fs :=
  ⟨[(["r"], FsNode.dir),
    (["r", "self"], FsNode.link ["r"])]⟩

/-- C8 witness: hashing `r` in `fsLoop` hits the root symlink and
returns `loopDetected`, by `c8_root_link_loop` at this concrete
filesystem. -/
theorem c8_witness :
    (2 ≤ 2 ∧
      fsFind fsLoop (realpath fsLoop ["r"]) = some FsNode.dir ∧
      realpath fsLoop (realpath fsLoop ["r"]) = realpath fsLoop ["r"] ∧
      listdirSorted fsLoop ["r"] = ["self"] ∧
      fsFind fsLoop (realpath fsLoop ["r"] ++ ["self"]) =
        some (FsNode.link (realpath fsLoop ["r"]))) ∧
    hashDirectoryTop fsLoop 2 ["r"] = .error HashDirErr.loopDetected :=
  ⟨⟨by decide, by decide, by decide, by decide, by decide⟩,
   c8_root_link_loop fsLoop ["r"] "self" [] 2 (by decide) (by decide)
     (by decide) (by decide) (by decide)⟩

end SymlinkLoop
